import Mathlib

/-!
# Verification of the molasses ratchet-tree math and handshake construction

This file embeds the tree-index algebra of `src/tree_math.rs` and the
handshake constructor of `src/handshake.rs` as Lean definitions over `Nat`,
and proves the spec's claims about them.

The Rust code operates on `usize` (64 bits).  We embed machine integers as
`Nat`.  `MAX_LEAVES = 2^63` and the functions' asserts keep every value that
a completing Rust execution manipulates strictly below `2^64`, and none of
the arithmetic in those executions wraps (this is proved below, as part of
the termination and boundary claims), so the `Nat` functions agree with the
`usize` functions on every execution that the Rust code completes without
panicking.  Panics (the `assert!`s) are modelled by `Option`-valued
`...Checked` wrappers: `none` is a panic.

The `while` loops of the source are embedded with an explicit fuel of 64:
node levels are at most 63 for indices below `2^64 - 1`, `parent_step`
strictly increases the level and the left-child walk strictly decreases it,
so 64 iterations are never exhausted on inputs satisfying the asserts
(proved below as the termination claim).
-/

namespace Molasses

/-- `MAX_LEAVES` from `tree_math.rs`: `(usize::MAX >> 1) + 1 = 2^63`. -/
def MAX_LEAVES : Nat := 2 ^ 63

/-- The largest representable index, `usize::MAX = 2^64 - 1`. -/
def MAX_UINT : Nat := 2 ^ 64 - 1

/-- Number of binary digits of `x` (with `bitlen 0 = 0`).  The source
computes this as `bit width - leading_zeros(x)`.  Fueled structural
recursion (the fuel `x` is enough; see `bitlen_eq`). -/
def bitlenAux : Nat → Nat → Nat
  | 0, _ => 0
  | fuel + 1, x => if x = 0 then 0 else bitlenAux fuel (x / 2) + 1

def bitlen (x : Nat) : Nat := bitlenAux x x

/-- `log2` from the source: `Some (floor (log2 x))` when `x ≠ 0`, `None`
otherwise (the source subtracts 1 from the bit length with `checked_sub`). -/
def log2 (x : Nat) : Option Nat :=
  if bitlen x = 0 then none else some (bitlen x - 1)

/-- `.unwrap()` applied to `log2`; the `none` branch is the panic case and is
unreachable wherever the source unwraps (the argument is positive there). -/
def log2unwrap (x : Nat) : Nat :=
  match log2 x with
  | some k => k
  | none => 0

/-- Fueled helper for `node_level` (the fuel `i` is enough; see
`node_level_eq`). -/
def levelAux : Nat → Nat → Nat
  | 0, _ => 0
  | fuel + 1, i => if i % 2 = 1 then levelAux fuel (i / 2) + 1 else 0

/-- `node_level` from `tree_math.rs`: the number of trailing 1 bits of
`idx` (the source computes it as `(!idx).trailing_zeros()`). -/
def node_level (idx : Nat) : Nat := levelAux idx idx

/-- `num_nodes_in_tree` (body; the assert is `num_nodes_in_treeChecked`). -/
def num_nodes_in_tree (num_leaves : Nat) : Nat := 2 * (num_leaves - 1) + 1

/-- `num_leaves_in_tree` (body; the assert is `num_leaves_in_treeChecked`). -/
def num_leaves_in_tree (num_nodes : Nat) : Nat := ((num_nodes - 1) >>> 1) + 1

/-- `root_idx` (body): `(1 << log2(num_nodes).unwrap()) - 1`. -/
def root_idx (num_leaves : Nat) : Nat :=
  (1 <<< log2unwrap (num_nodes_in_tree num_leaves)) - 1

/-- `node_left_child` from `tree_math.rs`.  The source performs no range
check: the function is total. -/
def node_left_child (idx : Nat) : Nat :=
  let lvl := node_level idx
  if lvl = 0 then idx else idx ^^^ (1 <<< (lvl - 1))

/-- Generic fueled while-loop: repeat `x := f x` while `stop x` is false,
checking the condition before each step. -/
def loopUntil (f : Nat → Nat) (stop : Nat → Bool) : Nat → Nat → Nat
  | 0, x => x
  | fuel + 1, x => if stop x then x else loopUntil f stop fuel (f x)

/-- `node_right_child` (body), with explicit fuel for the left-child walk
`while r >= num_nodes_in_tree(num_leaves) { r = node_left_child(r) }`. -/
def node_right_childFuel (fuel idx num_leaves : Nat) : Nat :=
  let lvl := node_level idx
  if lvl = 0 then idx
  else
    loopUntil node_left_child (fun r => decide (r < num_nodes_in_tree num_leaves)) fuel
      (idx ^^^ (3 <<< (lvl - 1)))

def node_right_child (idx num_leaves : Nat) : Nat := node_right_childFuel 64 idx num_leaves

/-- `parent_step` from `tree_math.rs` (the inner function of `node_parent`):
set bit `level(i)` and clear bit `level(i) + 1`. -/
def parent_step (i : Nat) : Nat :=
  let lvl := node_level i
  let bit_to_clear := i &&& (1 <<< (lvl + 1))
  let bit_to_set := 1 <<< lvl
  (i ||| bit_to_set) ^^^ bit_to_clear

/-- `node_parent` (body), with explicit fuel for
`while p >= num_nodes_in_tree(num_leaves) { p = parent_step(p) }`. -/
def node_parentFuel (fuel idx num_leaves : Nat) : Nat :=
  if idx = root_idx num_leaves then idx
  else
    loopUntil parent_step (fun p => decide (p < num_nodes_in_tree num_leaves)) fuel
      (parent_step idx)

def node_parent (idx num_leaves : Nat) : Nat := node_parentFuel 64 idx num_leaves

/-- `node_sibling` (body). -/
def node_sibling (idx num_leaves : Nat) : Nat :=
  let parent := node_parent idx num_leaves
  if idx < parent then node_right_child parent num_leaves
  else if parent < idx then node_left_child parent
  else parent

/-- The collecting loop of `node_direct_path`:
`while p != root { path.push(p); p = node_parent(p, num_leaves) }`. -/
def directPathLoop (num_leaves : Nat) : Nat → Nat → List Nat
  | 0, _ => []
  | fuel + 1, p =>
    if p = root_idx num_leaves then []
    else p :: directPathLoop num_leaves fuel (node_parent p num_leaves)

/-- `node_direct_path` (body). -/
def node_direct_path (start_idx num_leaves : Nat) : List Nat :=
  directPathLoop num_leaves 64 (node_parent start_idx num_leaves)

/-- The collecting loop of `node_copath`:
`while p != root { copath.push(node_sibling(p, n)); p = node_parent(p, n) }`. -/
def copathLoop (num_leaves : Nat) : Nat → Nat → List Nat
  | 0, _ => []
  | fuel + 1, p =>
    if p = root_idx num_leaves then []
    else node_sibling p num_leaves :: copathLoop num_leaves fuel (node_parent p num_leaves)

/-- `node_copath` (body). -/
def node_copath (start_idx num_leaves : Nat) : List Nat :=
  copathLoop num_leaves 64 start_idx

/-- The `sizes_present` vector built by `tree_frontier`: for each
`j in 0..=log2(num_leaves).unwrap()`, push `1 << j` when that bit of
`num_leaves` is set. -/
def sizes_present (num_leaves : Nat) : List Nat :=
  ((List.range (log2unwrap num_leaves + 1)).filter
      (fun j => num_leaves &&& (1 <<< j) != 0)).map (fun j => 1 <<< j)

/-- The accumulating loop of `tree_frontier`: iterate over subtree sizes
(largest first), pushing `root_idx(size) + base` and advancing `base` by
`num_nodes_in_tree(size) + 1`. -/
def frontierFold : List Nat → Nat → List Nat
  | [], _ => []
  | s :: rest, base =>
    (root_idx s + base) :: frontierFold rest (base + (num_nodes_in_tree s + 1))

/-- `tree_frontier` (body). -/
def tree_frontier (num_leaves : Nat) : List Nat :=
  frontierFold (sizes_present num_leaves).reverse 0

/-- `tree_leaves` (body): the even indices `0, 2, ..., 2*(num_leaves-1)`. -/
def tree_leaves (num_leaves : Nat) : List Nat :=
  (List.range num_leaves).map (fun i => 2 * i)

/-! ### Panic models

Each `...Checked` function guards the corresponding body with exactly the
`assert!`s of the source; `none` models a panic. -/

def num_nodes_in_treeChecked (num_leaves : Nat) : Option Nat :=
  if 0 < num_leaves ∧ num_leaves ≤ MAX_LEAVES then some (num_nodes_in_tree num_leaves)
  else none

def num_leaves_in_treeChecked (num_nodes : Nat) : Option Nat :=
  if num_nodes % 2 = 1 then some (num_leaves_in_tree num_nodes) else none

def root_idxChecked (num_leaves : Nat) : Option Nat :=
  if 0 < num_leaves ∧ num_leaves ≤ MAX_LEAVES then some (root_idx num_leaves) else none

def node_right_childChecked (idx num_leaves : Nat) : Option Nat :=
  if (0 < num_leaves ∧ num_leaves ≤ MAX_LEAVES) ∧ idx < num_nodes_in_tree num_leaves then
    some (node_right_child idx num_leaves)
  else none

def node_parentChecked (idx num_leaves : Nat) : Option Nat :=
  if (0 < num_leaves ∧ num_leaves ≤ MAX_LEAVES) ∧ idx < num_nodes_in_tree num_leaves then
    some (node_parent idx num_leaves)
  else none

def node_siblingChecked (idx num_leaves : Nat) : Option Nat :=
  if (0 < num_leaves ∧ num_leaves ≤ MAX_LEAVES) ∧ idx < num_nodes_in_tree num_leaves then
    some (node_sibling idx num_leaves)
  else none

def node_direct_pathChecked (start_idx num_leaves : Nat) : Option (List Nat) :=
  if (0 < num_leaves ∧ num_leaves ≤ MAX_LEAVES) ∧ start_idx < num_nodes_in_tree num_leaves then
    some (node_direct_path start_idx num_leaves)
  else none

def node_copathChecked (start_idx num_leaves : Nat) : Option (List Nat) :=
  if (0 < num_leaves ∧ num_leaves ≤ MAX_LEAVES) ∧ start_idx < num_nodes_in_tree num_leaves then
    some (node_copath start_idx num_leaves)
  else none

def tree_frontierChecked (num_leaves : Nat) : Option (List Nat) :=
  if 0 < num_leaves ∧ num_leaves ≤ MAX_LEAVES then some (tree_frontier num_leaves) else none

/-! ### Spec-side description of the frontier

`specFrontier` is written from the spec's words, to be compared with
`tree_frontier` (which is translated from the source). -/

/-- The positions of the set bits of `x`, most significant first. -/
def setBitsDesc (x : Nat) : List Nat :=
  ((List.range (bitlen x)).filter (fun j => x.testBit j)).reverse

/-- Written from the spec's words: for each set bit `j` of `num_leaves` from
MSB to LSB, emit the root of a full subtree of `2^j` leaves at the running
offset, then advance the offset by `2 * 2^j` (subtree plus absent
right-sibling).  The root of a full subtree of `2^j` leaves placed at node
offset `off` is `off + (2^j - 1)`. -/
def specFrontierAux : List Nat → Nat → List Nat
  | [], _ => []
  | j :: js, off => (off + (2 ^ j - 1)) :: specFrontierAux js (off + 2 * 2 ^ j)

def specFrontier (num_leaves : Nat) : List Nat :=
  specFrontierAux (setBitsDesc num_leaves) 0

/-! ### Handshake envelope (src/handshake.rs)

The cryptographic primitives (ciphersuite, signatures, `ring::hmac`) and
`GroupState` live outside the two source files; they are modelled from the
spec as opaque byte strings and function-valued records. -/

/-- Modelled from the spec: byte strings (`Vec<u8>` and friends). -/
abbrev Bytes : Type := List Nat

/-- Modelled from the spec: an opaque signature value produced by the
ciphersuite's signature scheme. -/
structure Signature where
  sigBytes : Bytes

/-- Modelled from the spec: an opaque HMAC output (`ring::hmac::Signature`). -/
structure HmacSignature where
  tagBytes : Bytes

/-- Modelled from the spec: an opaque DH public key. -/
structure DhPoint where
  pointBytes : Bytes

/-- Modelled from the spec: an opaque ECIES ciphertext. -/
structure EciesCiphertext where
  ctBytes : Bytes

/-- Modelled from the spec: a participant credential. -/
structure Credential where
  credBytes : Bytes

/-- Modelled from the spec (section 6): the signature scheme of a
ciphersuite, with `sign` and `signature_to_bytes` as used by
`Handshake::from_group_op`. -/
structure SignatureScheme where
  sign : Bytes → Bytes → Signature
  signature_to_bytes : Signature → Bytes

/-- Modelled from the spec (section 6): a ciphersuite is an opaque
capability record; `from_group_op` uses only its signature scheme. -/
structure CipherSuite where
  sig_impl : SignatureScheme

/-- `Welcome` from `handshake.rs`. -/
structure Welcome where
  user_init_key_id : Bytes
  cipher_suite : CipherSuite
  encrypted_welcome_info : EciesCiphertext

/-- `DirectPathNodeMessage` from `handshake.rs`. -/
structure DirectPathNodeMessage where
  public_key : DhPoint
  node_secrets : List EciesCiphertext

/-- `DirectPathMessage` from `handshake.rs`. -/
structure DirectPathMessage where
  node_messages : List DirectPathNodeMessage

/-- `UserInitKey` from `handshake.rs`. -/
structure UserInitKey where
  user_init_key_id : Bytes
  cipher_suites : List CipherSuite
  init_keys : List DhPoint
  credential : Credential
  signature : Signature

/-- `GroupInit` from `handshake.rs` (unit; not defined by the protocol). -/
structure GroupInit where

/-- `GroupAdd` from `handshake.rs`. -/
structure GroupAdd where
  init_key : UserInitKey

/-- `GroupUpdate` from `handshake.rs`. -/
structure GroupUpdate where
  path : DirectPathMessage

/-- `GroupRemove` from `handshake.rs`. -/
structure GroupRemove where
  removed : Nat
  path : DirectPathMessage

/-- `GroupOperation` from `handshake.rs`. -/
inductive GroupOperation where
  | Init : GroupInit → GroupOperation
  | Add : GroupAdd → GroupOperation
  | Update : GroupUpdate → GroupOperation
  | Remove : GroupRemove → GroupOperation

/-- Modelled from the spec (section 3): the fields of `GroupState` that
`Handshake::from_group_op` reads (`group_state.rs` is not among the given
source files). -/
structure GroupState where
  epoch : Nat
  transcript_hash : Bytes
  confirmation_key : Bytes
  identity_key : Bytes
  my_position_in_roster : Nat

/-- `Handshake` from `handshake.rs`. -/
structure Handshake where
  prior_epoch : Nat
  operation : GroupOperation
  signer_index : Nat
  signature : Signature
  confirmation : HmacSignature

/-- `Handshake::from_group_op` from `handshake.rs`.  The argument `hmac`
models the external function `ring::hmac::sign`. -/
def Handshake.from_group_op (hmac : Bytes → Bytes → HmacSignature)
    (cs : CipherSuite) (state : GroupState) (op : GroupOperation) : Handshake :=
  let signature := cs.sig_impl.sign state.identity_key state.transcript_hash
  let confirmation_data :=
    List.append state.transcript_hash (cs.sig_impl.signature_to_bytes signature)
  let confirmation := hmac state.confirmation_key confirmation_data
  { prior_epoch := state.epoch
    operation := op
    signer_index := state.my_position_in_roster
    signature := signature
    confirmation := confirmation }

/-! ### Recursion equations for the fueled helpers

The fuel arguments of `bitlenAux` and `levelAux` are large enough that the
functions satisfy the intended (unfueled) recursion equations. -/

lemma bitlenAux_zero (fuel : Nat) : bitlenAux fuel 0 = 0 := by
  cases fuel <;> simp [bitlenAux]

lemma bitlenAux_congr : ∀ f1 f2 x : Nat, x ≤ f1 → x ≤ f2 → bitlenAux f1 x = bitlenAux f2 x := by
  intro f1
  induction f1 with
  | zero =>
    intro f2 x h1 _
    have hx : x = 0 := by omega
    subst hx
    simp [bitlenAux_zero]
  | succ f1 ih =>
    intro f2 x h1 h2
    by_cases hx : x = 0
    · subst hx; simp [bitlenAux_zero]
    · obtain ⟨f2, rfl⟩ : ∃ g, f2 = g + 1 := ⟨f2 - 1, by omega⟩
      simp only [bitlenAux, if_neg hx]
      rw [ih f2 (x / 2) (by omega) (by omega)]

lemma bitlen_eq (x : Nat) : bitlen x = if x = 0 then 0 else bitlen (x / 2) + 1 := by
  by_cases hx : x = 0
  · subst hx; simp [bitlen, bitlenAux_zero]
  · rw [if_neg hx]
    show bitlenAux x x = bitlenAux (x / 2) (x / 2) + 1
    obtain ⟨y, rfl⟩ : ∃ y, x = y + 1 := ⟨x - 1, by omega⟩
    simp only [bitlenAux, if_neg hx]
    rw [bitlenAux_congr y ((y + 1) / 2) ((y + 1) / 2) (by omega) (le_refl _)]

lemma levelAux_zero_of_even (fuel i : Nat) (h : i % 2 = 0) : levelAux fuel i = 0 := by
  cases fuel with
  | zero => simp [levelAux]
  | succ f => simp [levelAux, h]

lemma levelAux_congr : ∀ f1 f2 x : Nat, x ≤ f1 → x ≤ f2 → levelAux f1 x = levelAux f2 x := by
  intro f1
  induction f1 with
  | zero =>
    intro f2 x h1 _
    have hx : x = 0 := by omega
    subst hx
    cases f2 <;> simp [levelAux]
  | succ f1 ih =>
    intro f2 x h1 h2
    by_cases hx : x % 2 = 1
    · have hx0 : x ≠ 0 := by omega
      obtain ⟨f2, rfl⟩ : ∃ g, f2 = g + 1 := ⟨f2 - 1, by omega⟩
      simp only [levelAux, if_pos hx]
      rw [ih f2 (x / 2) (by omega) (by omega)]
    · rw [levelAux_zero_of_even, levelAux_zero_of_even] <;> omega

lemma node_level_eq (i : Nat) : node_level i = if i % 2 = 1 then node_level (i / 2) + 1 else 0 := by
  by_cases hx : i % 2 = 1
  · rw [if_pos hx]
    show levelAux i i = levelAux (i / 2) (i / 2) + 1
    obtain ⟨y, rfl⟩ : ∃ y, i = y + 1 := ⟨i - 1, by omega⟩
    simp only [levelAux, if_pos hx]
    rw [levelAux_congr y ((y + 1) / 2) ((y + 1) / 2) (by omega) (le_refl _)]
  · rw [if_neg hx]
    exact levelAux_zero_of_even i i (by omega)

/-! ### Bounds for `bitlen` -/

lemma lt_two_pow_bitlen (x : Nat) : x < 2 ^ bitlen x := by
  induction x using Nat.strong_induction_on with
  | _ x ih =>
    rw [bitlen_eq]
    by_cases hx : x = 0
    · subst hx; simp
    · rw [if_neg hx]
      have h2 := ih (x / 2) (by omega)
      have h3 : 2 ^ (bitlen (x / 2) + 1) = 2 * 2 ^ bitlen (x / 2) := by ring
      omega

lemma bitlen_pos (x : Nat) (h : 0 < x) : 0 < bitlen x := by
  rw [bitlen_eq, if_neg (by omega : ¬ x = 0)]
  omega

lemma bitlen_one : bitlen 1 = 1 := by
  have b0 : bitlen 0 = 0 := by rw [bitlen_eq]; simp
  rw [bitlen_eq]
  norm_num
  exact b0

lemma two_pow_bitlen_le (x : Nat) (h : 0 < x) : 2 ^ (bitlen x - 1) ≤ x := by
  induction x using Nat.strong_induction_on with
  | _ x ih =>
    rw [bitlen_eq, if_neg (by omega : ¬ x = 0)]
    by_cases hx2 : x / 2 = 0
    · have hx1 : x = 1 := by omega
      subst hx1
      have b0 : bitlen 0 = 0 := by rw [bitlen_eq]; simp
      simp [b0]
    · have h2 := ih (x / 2) (by omega) (by omega)
      have h4 : 0 < bitlen (x / 2) := bitlen_pos (x / 2) (by omega)
      have h5 : bitlen (x / 2) + 1 - 1 = (bitlen (x / 2) - 1) + 1 := by omega
      rw [h5]
      have h3 : 2 ^ ((bitlen (x / 2) - 1) + 1) = 2 * 2 ^ (bitlen (x / 2) - 1) := by ring
      omega

lemma bitlen_eq_of_bounds (x k : Nat) (h1 : 2 ^ k ≤ x) (h2 : x < 2 ^ (k + 1)) :
    bitlen x = k + 1 := by
  have hx : 0 < x := lt_of_lt_of_le (Nat.two_pow_pos k) h1
  have hu := lt_two_pow_bitlen x
  have hl := two_pow_bitlen_le x hx
  have hb := bitlen_pos x hx
  have c1 : k < bitlen x := by
    by_contra hc
    have : bitlen x ≤ k := by omega
    have := Nat.pow_le_pow_right (by omega : 1 ≤ 2) this
    omega
  have c2 : bitlen x - 1 < k + 1 := by
    by_contra hc
    have : k + 1 ≤ bitlen x - 1 := by omega
    have := Nat.pow_le_pow_right (by omega : 1 ≤ 2) this
    omega
  omega

/-! ### The normal form `nodeVal q l`

Every natural number `i` is uniquely `q * 2^(l+1) + (2^l - 1)` where `l` is
the number of trailing 1 bits of `i` (the node level) and `q` the remaining
high bits.  All the tree-math functions act simply on these coordinates. -/

def nodeVal (q l : Nat) : Nat := q * 2 ^ (l + 1) + (2 ^ l - 1)

lemma nodeVal_add_one (q l : Nat) : nodeVal q l + 1 = q * 2 ^ (l + 1) + 2 ^ l := by
  have h := Nat.two_pow_pos l
  unfold nodeVal
  omega

lemma nodeVal_zero (q : Nat) : nodeVal q 0 = 2 * q := by
  unfold nodeVal
  omega

lemma nodeVal_succ (q l : Nat) : nodeVal q (l + 1) = 2 * nodeVal q l + 1 := by
  have h1 := nodeVal_add_one q (l + 1)
  have h2 := nodeVal_add_one q l
  have e1 : q * 2 ^ (l + 1 + 1) = 2 * (q * 2 ^ (l + 1)) := by ring
  have e2 : (2:Nat) ^ (l + 1) = 2 * 2 ^ l := by ring
  omega

lemma node_level_nodeVal (q l : Nat) : node_level (nodeVal q l) = l := by
  induction l generalizing q with
  | zero =>
    rw [node_level_eq, nodeVal_zero]
    simp
  | succ l ih =>
    rw [node_level_eq, nodeVal_succ]
    have h1 : (2 * nodeVal q l + 1) % 2 = 1 := by omega
    have h2 : (2 * nodeVal q l + 1) / 2 = nodeVal q l := by omega
    rw [if_pos h1, h2, ih]

lemma nodeVal_div_pow (q l j : Nat) (h : j ≤ l) : nodeVal q l / 2 ^ j = nodeVal q (l - j) := by
  induction j with
  | zero => simp
  | succ j ih =>
    have hj : j ≤ l := by omega
    have e1 : (2:Nat) ^ (j + 1) = 2 ^ j * 2 := by ring
    rw [e1, ← Nat.div_div_eq_div_mul, ih hj]
    have e2 : l - j = (l - (j + 1)) + 1 := by omega
    rw [e2, nodeVal_succ]
    omega

lemma nodeVal_div_level (q l : Nat) : nodeVal q l / 2 ^ (l + 1) = q := by
  have e1 : (2:Nat) ^ (l + 1) = 2 ^ l * 2 := by ring
  rw [e1, ← Nat.div_div_eq_div_mul, nodeVal_div_pow q l l (le_refl l), Nat.sub_self, nodeVal_zero]
  omega

lemma nodeVal_decomp (i : Nat) : nodeVal (i / 2 ^ (node_level i + 1)) (node_level i) = i := by
  induction i using Nat.strong_induction_on with
  | _ i ih =>
    by_cases hx : i % 2 = 1
    · have hlvl : node_level i = node_level (i / 2) + 1 := by
        rw [node_level_eq, if_pos hx]
      have hdiv : i / 2 ^ (node_level i + 1) = (i / 2) / 2 ^ (node_level (i / 2) + 1) := by
        rw [hlvl]
        have e1 : (2:Nat) ^ (node_level (i / 2) + 1 + 1) = 2 * 2 ^ (node_level (i / 2) + 1) := by
          ring
        rw [e1, ← Nat.div_div_eq_div_mul]
      rw [hdiv, hlvl, nodeVal_succ, ih (i / 2) (by omega)]
      omega
    · have hlvl : node_level i = 0 := by
        rw [node_level_eq, if_neg hx]
      rw [hlvl, nodeVal_zero]
      have e1 : (2:Nat) ^ (0 + 1) = 2 := by norm_num
      rw [e1]
      omega

lemma nodeVal_inj (q1 l1 q2 l2 : Nat) (h : nodeVal q1 l1 = nodeVal q2 l2) : q1 = q2 ∧ l1 = l2 := by
  have hl : l1 = l2 := by
    have e1 := node_level_nodeVal q1 l1
    have e2 := node_level_nodeVal q2 l2
    rw [h] at e1
    omega
  subst hl
  have e1 := nodeVal_div_level q1 l1
  have e2 := nodeVal_div_level q2 l1
  rw [h] at e1
  constructor
  · omega
  · rfl

lemma exists_nodeVal (i : Nat) : ∃ q l, i = nodeVal q l :=
  ⟨i / 2 ^ (node_level i + 1), node_level i, (nodeVal_decomp i).symm⟩

/-! ### Bits of `nodeVal` and the bitwise steps in coordinates -/

lemma testBit_nodeVal (q l j : Nat) :
    (nodeVal q l).testBit j =
      if j < l then true else if j = l then false else q.testBit (j - (l + 1)) := by
  rcases Nat.lt_trichotomy j l with hj | hj | hj
  · rw [if_pos hj, Nat.testBit_to_div_mod]
    rw [nodeVal_div_pow q l j (by omega)]
    have e2 : l - j = (l - j - 1) + 1 := by omega
    rw [e2, nodeVal_succ]
    simp only [decide_eq_true_eq]
    omega
  · subst hj
    rw [if_neg (lt_irrefl j), if_pos rfl, Nat.testBit_to_div_mod]
    rw [nodeVal_div_pow q j j (le_refl j), Nat.sub_self, nodeVal_zero]
    simp only [decide_eq_false_iff_not]
    omega
  · rw [if_neg (by omega), if_neg (by omega), Nat.testBit_to_div_mod, Nat.testBit_to_div_mod]
    have hd : nodeVal q l / 2 ^ j = q / 2 ^ (j - (l + 1)) := by
      have e1 : (2:Nat) ^ j = 2 ^ (l + 1) * 2 ^ (j - (l + 1)) := by
        rw [← pow_add]
        congr 1
        omega
      rw [e1, ← Nat.div_div_eq_div_mul, nodeVal_div_level]
    rw [hd]

lemma one_shiftLeft (l : Nat) : (1 <<< l) = 2 ^ l := by
  rw [Nat.shiftLeft_eq, one_mul]

lemma testBit_two_pow (n m : Nat) : (2 ^ n : Nat).testBit m = decide (n = m) := by
  by_cases h : n = m
  · subst h
    simp [Nat.testBit_two_pow_self]
  · simp [Nat.testBit_two_pow_of_ne h, h]

lemma testBit_two_mul_zero (x : Nat) : (2 * x).testBit 0 = false := by
  rw [Nat.testBit_zero]
  simp only [decide_eq_false_iff_not]
  omega

lemma testBit_two_mul (x k : Nat) : (2 * x).testBit (k + 1) = x.testBit k := by
  rw [Nat.testBit_succ]
  congr 1
  omega

lemma testBit_two_mul_add_one_zero (x : Nat) : (2 * x + 1).testBit 0 = true := by
  rw [Nat.testBit_zero]
  simp only [decide_eq_true_eq]
  omega

lemma testBit_two_mul_add_one (x k : Nat) : (2 * x + 1).testBit (k + 1) = x.testBit k := by
  rw [Nat.testBit_succ]
  congr 1
  omega

lemma parent_step_def (i : Nat) :
    parent_step i = (i ||| 1 <<< node_level i) ^^^ (i &&& 1 <<< (node_level i + 1)) := rfl

lemma parent_step_nodeVal (q l : Nat) : parent_step (nodeVal q l) = nodeVal (q / 2) (l + 1) := by
  rw [parent_step_def, node_level_nodeVal, one_shiftLeft, one_shiftLeft]
  apply Nat.eq_of_testBit_eq
  intro j
  rw [Nat.testBit_xor, Nat.testBit_lor, Nat.testBit_land]
  rcases Nat.lt_trichotomy j l with hj | hj | hj
  · have t1 : (nodeVal q l).testBit j = true := by
      rw [testBit_nodeVal, if_pos hj]
    have t2 : (nodeVal (q / 2) (l + 1)).testBit j = true := by
      rw [testBit_nodeVal, if_pos (by omega : j < l + 1)]
    have t3 : ((2:Nat) ^ l).testBit j = false := by
      rw [testBit_two_pow]
      simp only [decide_eq_false_iff_not]
      omega
    have t4 : ((2:Nat) ^ (l + 1)).testBit j = false := by
      rw [testBit_two_pow]
      simp only [decide_eq_false_iff_not]
      omega
    rw [t1, t2, t3, t4]
    rfl
  · subst hj
    have t1 : (nodeVal q j).testBit j = false := by
      rw [testBit_nodeVal, if_neg (lt_irrefl j), if_pos rfl]
    have t2 : (nodeVal (q / 2) (j + 1)).testBit j = true := by
      rw [testBit_nodeVal, if_pos (by omega : j < j + 1)]
    have t3 : ((2:Nat) ^ j).testBit j = true := by
      rw [testBit_two_pow]
      simp
    have t4 : ((2:Nat) ^ (j + 1)).testBit j = false := by
      rw [testBit_two_pow]
      simp only [decide_eq_false_iff_not]
      omega
    rw [t1, t2, t3, t4]
    rfl
  · by_cases hj1 : j = l + 1
    · subst hj1
      have t1 : (nodeVal q l).testBit (l + 1) = q.testBit 0 := by
        rw [testBit_nodeVal, if_neg (by omega), if_neg (by omega),
          show l + 1 - (l + 1) = 0 from by omega]
      have t2 : (nodeVal (q / 2) (l + 1)).testBit (l + 1) = false := by
        rw [testBit_nodeVal, if_neg (lt_irrefl (l + 1)), if_pos rfl]
      have t3 : ((2:Nat) ^ l).testBit (l + 1) = false := by
        rw [testBit_two_pow]
        simp only [decide_eq_false_iff_not]
        omega
      have t4 : ((2:Nat) ^ (l + 1)).testBit (l + 1) = true := by
        rw [testBit_two_pow]
        simp
      rw [t1, t2, t3, t4]
      cases q.testBit 0 <;> rfl
    · have t1 : (nodeVal q l).testBit j = q.testBit (j - (l + 1)) := by
        rw [testBit_nodeVal, if_neg (by omega), if_neg (by omega)]
      have t2 : (nodeVal (q / 2) (l + 1)).testBit j = (q / 2).testBit (j - (l + 1 + 1)) := by
        rw [testBit_nodeVal, if_neg (by omega), if_neg (by omega)]
      have t3 : ((2:Nat) ^ l).testBit j = false := by
        rw [testBit_two_pow]
        simp only [decide_eq_false_iff_not]
        omega
      have t4 : ((2:Nat) ^ (l + 1)).testBit j = false := by
        rw [testBit_two_pow]
        simp only [decide_eq_false_iff_not]
        omega
      rw [t1, t2, t3, t4, Bool.or_false, Bool.and_false, Bool.xor_false]
      rw [show j - (l + 1) = (j - (l + 1 + 1)) + 1 from by omega, Nat.testBit_succ]

lemma node_left_child_def (idx : Nat) :
    node_left_child idx =
      if node_level idx = 0 then idx else idx ^^^ (1 <<< (node_level idx - 1)) := rfl

lemma node_left_child_leaf (i : Nat) (h : node_level i = 0) : node_left_child i = i := by
  rw [node_left_child_def, if_pos h]

lemma node_left_child_nodeVal (q l : Nat) :
    node_left_child (nodeVal q (l + 1)) = nodeVal (2 * q) l := by
  rw [node_left_child_def, node_level_nodeVal, if_neg (by omega : ¬ l + 1 = 0)]
  rw [show l + 1 - 1 = l from by omega, one_shiftLeft]
  apply Nat.eq_of_testBit_eq
  intro j
  rw [Nat.testBit_xor]
  rcases Nat.lt_trichotomy j l with hj | hj | hj
  · have t1 : (nodeVal q (l + 1)).testBit j = true := by
      rw [testBit_nodeVal, if_pos (by omega : j < l + 1)]
    have t2 : (nodeVal (2 * q) l).testBit j = true := by
      rw [testBit_nodeVal, if_pos hj]
    have t3 : ((2:Nat) ^ l).testBit j = false := by
      rw [testBit_two_pow]
      simp only [decide_eq_false_iff_not]
      omega
    rw [t1, t2, t3]
    rfl
  · subst hj
    have t1 : (nodeVal q (j + 1)).testBit j = true := by
      rw [testBit_nodeVal, if_pos (by omega : j < j + 1)]
    have t2 : (nodeVal (2 * q) j).testBit j = false := by
      rw [testBit_nodeVal, if_neg (lt_irrefl j), if_pos rfl]
    have t3 : ((2:Nat) ^ j).testBit j = true := by
      rw [testBit_two_pow]
      simp
    rw [t1, t2, t3]
    rfl
  · by_cases hj1 : j = l + 1
    · subst hj1
      have t1 : (nodeVal q (l + 1)).testBit (l + 1) = false := by
        rw [testBit_nodeVal, if_neg (lt_irrefl (l + 1)), if_pos rfl]
      have t2 : (nodeVal (2 * q) l).testBit (l + 1) = false := by
        rw [testBit_nodeVal, if_neg (by omega), if_neg (by omega),
          show l + 1 - (l + 1) = 0 from by omega, testBit_two_mul_zero]
      have t3 : ((2:Nat) ^ l).testBit (l + 1) = false := by
        rw [testBit_two_pow]
        simp only [decide_eq_false_iff_not]
        omega
      rw [t1, t2, t3]
      rfl
    · have t1 : (nodeVal q (l + 1)).testBit j = q.testBit (j - (l + 1 + 1)) := by
        rw [testBit_nodeVal, if_neg (by omega), if_neg (by omega)]
      have t2 : (nodeVal (2 * q) l).testBit j = (2 * q).testBit (j - (l + 1)) := by
        rw [testBit_nodeVal, if_neg (by omega), if_neg (by omega)]
      have t3 : ((2:Nat) ^ l).testBit j = false := by
        rw [testBit_two_pow]
        simp only [decide_eq_false_iff_not]
        omega
      rw [t1, t2, t3, Bool.xor_false]
      rw [show j - (l + 1) = (j - (l + 1 + 1)) + 1 from by omega, testBit_two_mul]

lemma testBit_three (m : Nat) : (3 : Nat).testBit m = decide (m < 2) := by
  match m with
  | 0 => decide
  | 1 => decide
  | m + 2 =>
    rw [Nat.testBit_to_div_mod]
    have h4 : (4:Nat) ≤ 2 ^ (m + 2) := by
      calc (4:Nat) = 2 ^ 2 := by norm_num
      _ ≤ 2 ^ (m + 2) := Nat.pow_le_pow_right (by norm_num) (by omega)
    have h0 : (3:Nat) / 2 ^ (m + 2) = 0 := Nat.div_eq_of_lt (by omega)
    rw [h0]
    simp

lemma three_shiftLeft_testBit (l j : Nat) :
    ((3:Nat) <<< l).testBit j = (decide (j = l) || decide (j = l + 1)) := by
  rw [Nat.testBit_shiftLeft, testBit_three]
  by_cases h1 : j < l
  · have e1 : decide (l ≤ j) = false := by
      simp only [decide_eq_false_iff_not]
      omega
    have e2 : decide (j = l) = false := by
      simp only [decide_eq_false_iff_not]
      omega
    have e3 : decide (j = l + 1) = false := by
      simp only [decide_eq_false_iff_not]
      omega
    rw [e1, e2, e3]
    rfl
  · have e1 : decide (l ≤ j) = true := by
      simp only [decide_eq_true_eq]
      omega
    rw [e1, Bool.true_and]
    by_cases h2 : j = l
    · subst h2
      have e2 : decide (j - j < 2) = true := by
        simp only [decide_eq_true_eq]
        omega
      rw [e2]
      simp
    · by_cases h3 : j = l + 1
      · subst h3
        have e2 : decide (l + 1 - l < 2) = true := by
          simp only [decide_eq_true_eq]
          omega
        rw [e2]
        simp
      · have e2 : decide (j - l < 2) = false := by
          simp only [decide_eq_false_iff_not]
          omega
        have e3 : decide (j = l) = false := by
          simp only [decide_eq_false_iff_not]
          omega
        have e4 : decide (j = l + 1) = false := by
          simp only [decide_eq_false_iff_not]
          omega
        rw [e2, e3, e4]
        rfl

lemma rc_conj_nodeVal (q l : Nat) :
    nodeVal q (l + 1) ^^^ (3 <<< l) = nodeVal (2 * q + 1) l := by
  apply Nat.eq_of_testBit_eq
  intro j
  rw [Nat.testBit_xor, three_shiftLeft_testBit]
  rcases Nat.lt_trichotomy j l with hj | hj | hj
  · have t1 : (nodeVal q (l + 1)).testBit j = true := by
      rw [testBit_nodeVal, if_pos (by omega : j < l + 1)]
    have t2 : (nodeVal (2 * q + 1) l).testBit j = true := by
      rw [testBit_nodeVal, if_pos hj]
    have e2 : decide (j = l) = false := by
      simp only [decide_eq_false_iff_not]
      omega
    have e3 : decide (j = l + 1) = false := by
      simp only [decide_eq_false_iff_not]
      omega
    rw [t1, t2, e2, e3]
    rfl
  · subst hj
    have t1 : (nodeVal q (j + 1)).testBit j = true := by
      rw [testBit_nodeVal, if_pos (by omega : j < j + 1)]
    have t2 : (nodeVal (2 * q + 1) j).testBit j = false := by
      rw [testBit_nodeVal, if_neg (lt_irrefl j), if_pos rfl]
    have e2 : decide (j = j) = true := by simp
    have e3 : decide (j = j + 1) = false := by
      simp only [decide_eq_false_iff_not]
      omega
    rw [t1, t2, e2, e3]
    rfl
  · by_cases hj1 : j = l + 1
    · subst hj1
      have t1 : (nodeVal q (l + 1)).testBit (l + 1) = false := by
        rw [testBit_nodeVal, if_neg (lt_irrefl (l + 1)), if_pos rfl]
      have t2 : (nodeVal (2 * q + 1) l).testBit (l + 1) = true := by
        rw [testBit_nodeVal, if_neg (by omega), if_neg (by omega),
          show l + 1 - (l + 1) = 0 from by omega, testBit_two_mul_add_one_zero]
      have e2 : decide (l + 1 = l) = false := by
        simp only [decide_eq_false_iff_not]
        omega
      have e3 : decide (l + 1 = l + 1) = true := by simp
      rw [t1, t2, e2, e3]
      rfl
    · have t1 : (nodeVal q (l + 1)).testBit j = q.testBit (j - (l + 1 + 1)) := by
        rw [testBit_nodeVal, if_neg (by omega), if_neg (by omega)]
      have t2 : (nodeVal (2 * q + 1) l).testBit j = (2 * q + 1).testBit (j - (l + 1)) := by
        rw [testBit_nodeVal, if_neg (by omega), if_neg (by omega)]
      have e2 : decide (j = l) = false := by
        simp only [decide_eq_false_iff_not]
        omega
      have e3 : decide (j = l + 1) = false := by
        simp only [decide_eq_false_iff_not]
        omega
      rw [t1, t2, e2, e3, Bool.or_false, Bool.xor_false]
      rw [show j - (l + 1) = (j - (l + 1 + 1)) + 1 from by omega, testBit_two_mul_add_one]

/-! ### The root index -/

def rIdx (n : Nat) : Nat := log2unwrap (num_nodes_in_tree n)

lemma num_nodes_pos (n : Nat) : 0 < num_nodes_in_tree n := by
  unfold num_nodes_in_tree
  omega

lemma num_nodes_odd (n : Nat) : num_nodes_in_tree n % 2 = 1 := by
  unfold num_nodes_in_tree
  omega

lemma log2unwrap_eq (x : Nat) (h : 0 < x) : log2unwrap x = bitlen x - 1 := by
  have hb : ¬ bitlen x = 0 := by
    have := bitlen_pos x h
    omega
  simp [log2unwrap, log2, hb]

lemma rIdx_spec (n : Nat) :
    2 ^ rIdx n ≤ num_nodes_in_tree n ∧ num_nodes_in_tree n < 2 ^ (rIdx n + 1) := by
  have hN := num_nodes_pos n
  have h1 := two_pow_bitlen_le _ hN
  have h2 := lt_two_pow_bitlen (num_nodes_in_tree n)
  have hb := bitlen_pos _ hN
  unfold rIdx
  rw [log2unwrap_eq _ hN]
  refine ⟨h1, ?_⟩
  rw [show bitlen (num_nodes_in_tree n) - 1 + 1 = bitlen (num_nodes_in_tree n) from by omega]
  exact h2

lemma root_idx_eq (n : Nat) : root_idx n = nodeVal 0 (rIdx n) := by
  unfold root_idx rIdx nodeVal
  rw [one_shiftLeft]
  simp

lemma root_idx_lt (n : Nat) : root_idx n < num_nodes_in_tree n := by
  have h := (rIdx_spec n).1
  have h2 := Nat.two_pow_pos (rIdx n)
  rw [root_idx_eq]
  unfold nodeVal
  simp
  omega

lemma node_level_root_idx (n : Nat) : node_level (root_idx n) = rIdx n := by
  rw [root_idx_eq, node_level_nodeVal]

lemma level_le_rIdx (n q l : Nat) (h : nodeVal q l < num_nodes_in_tree n) : l ≤ rIdx n := by
  have h2 := (rIdx_spec n).2
  have h3 : (2:Nat) ^ l - 1 ≤ nodeVal q l := by
    unfold nodeVal
    omega
  by_contra hc
  have h4 := Nat.pow_le_pow_right (by omega : 1 ≤ 2) (by omega : rIdx n + 1 ≤ l)
  have h5 := Nat.two_pow_pos l
  omega

lemma qpart_lt (n q l : Nat) (h : nodeVal q l < num_nodes_in_tree n) :
    q < 2 ^ (rIdx n - l) := by
  have hl := level_le_rIdx n q l h
  have h2 := (rIdx_spec n).2
  have e1 : (2:Nat) ^ (rIdx n + 1) = 2 ^ (rIdx n - l) * 2 ^ (l + 1) := by
    rw [← pow_add]
    congr 1
    omega
  have h3 : q * 2 ^ (l + 1) ≤ nodeVal q l := by
    unfold nodeVal
    omega
  have h4 : q * 2 ^ (l + 1) < 2 ^ (rIdx n - l) * 2 ^ (l + 1) := by omega
  exact Nat.lt_of_mul_lt_mul_right h4

lemma eq_root_of_level_eq (n q : Nat) (h : nodeVal q (rIdx n) < num_nodes_in_tree n) :
    nodeVal q (rIdx n) = root_idx n := by
  have hq := qpart_lt n q (rIdx n) h
  rw [Nat.sub_self] at hq
  simp at hq
  subst hq
  exact (root_idx_eq n).symm

lemma level_lt_of_ne_root (n q l : Nat) (h : nodeVal q l < num_nodes_in_tree n)
    (hne : nodeVal q l ≠ root_idx n) : l < rIdx n := by
  have hle := level_le_rIdx n q l h
  rcases Nat.lt_or_ge l (rIdx n) with hlt | hge
  · exact hlt
  · exfalso
    have hl : l = rIdx n := by omega
    subst hl
    exact hne (eq_root_of_level_eq n q h)

/-! ### The fueled loops compute first hitting points -/

lemma loopUntil_eq_iterate (f : Nat → Nat) (stop : Nat → Bool) (T : Nat) :
    ∀ x : Nat, stop (f^[T] x) = true → (∀ t, t < T → stop (f^[t] x) = false) →
      ∀ fuel, T ≤ fuel → loopUntil f stop fuel x = f^[T] x := by
  induction T with
  | zero =>
    intro x hT _ fuel _
    cases fuel with
    | zero => rfl
    | succ fuel =>
      simp only [Function.iterate_zero_apply] at hT
      simp [loopUntil, hT]
  | succ T ih =>
    intro x hT hmin fuel hf
    obtain ⟨fuel, rfl⟩ : ∃ g, fuel = g + 1 := ⟨fuel - 1, by omega⟩
    have h0 : stop x = false := by
      have := hmin 0 (by omega)
      simpa using this
    simp only [loopUntil, h0, Bool.false_eq_true, if_false]
    rw [Function.iterate_succ_apply] at hT
    have hmin2 : ∀ t, t < T → stop (f^[t] (f x)) = false := by
      intro t ht
      have := hmin (t + 1) (by omega)
      rwa [Function.iterate_succ_apply] at this
    rw [ih (f x) hT hmin2 fuel (by omega)]
    rw [Function.iterate_succ_apply]

lemma iterate_parent_step (q l t : Nat) :
    parent_step^[t] (nodeVal q l) = nodeVal (q / 2 ^ t) (l + t) := by
  induction t generalizing q l with
  | zero => simp
  | succ t ih =>
    rw [Function.iterate_succ_apply, parent_step_nodeVal, ih]
    congr 1
    · rw [Nat.div_div_eq_div_mul]
      congr 1
      ring
    · omega

lemma iterate_left_child (q l : Nat) :
    ∀ t, t ≤ l → node_left_child^[t] (nodeVal q l) = nodeVal (q * 2 ^ t) (l - t) := by
  intro t
  induction t with
  | zero => intro _; simp
  | succ t ih =>
    intro ht
    rw [Function.iterate_succ_apply', ih (by omega)]
    rw [show l - t = (l - (t + 1)) + 1 from by omega, node_left_child_nodeVal]
    congr 1
    ring

lemma loopUntil_stop (f : Nat → Nat) (stop : Nat → Bool) (fuel x : Nat) (h : stop x = true) :
    loopUntil f stop fuel x = x := by
  cases fuel with
  | zero => rfl
  | succ fuel => simp [loopUntil, h]

lemma mul_pow_div_pow (a s t : Nat) (h : t ≤ s) : a * 2 ^ s / 2 ^ t = a * 2 ^ (s - t) := by
  conv_lhs =>
    rw [show s = t + (s - t) from by omega, pow_add,
      show a * (2 ^ t * 2 ^ (s - t)) = 2 ^ t * (a * 2 ^ (s - t)) from by ring]
  rw [Nat.mul_div_cancel_left _ (Nat.two_pow_pos t)]

lemma mul_pow_div_pow_succ (a s : Nat) : a * 2 ^ s / 2 ^ (s + 1) = a / 2 := by
  rw [show s + 1 = s + 1 from rfl, pow_succ, ← Nat.div_div_eq_div_mul]
  rw [Nat.mul_div_cancel _ (Nat.two_pow_pos s)]

lemma rIdx_le_63 (n : Nat) (hn : n ≤ MAX_LEAVES) : rIdx n ≤ 63 := by
  have h1 := (rIdx_spec n).1
  have hN : num_nodes_in_tree n ≤ 2 ^ 64 - 1 := by
    unfold num_nodes_in_tree
    unfold MAX_LEAVES at hn
    omega
  by_contra hc
  have h2 := Nat.pow_le_pow_right (by omega : 1 ≤ 2) (by omega : 64 ≤ rIdx n)
  omega

/-! ### Characterization of `node_parent` -/

lemma node_parent_of_root (n : Nat) : node_parent (root_idx n) n = root_idx n := by
  unfold node_parent node_parentFuel
  rw [if_pos rfl]

lemma node_parentFuel_of_ne (fuel i n : Nat) (h : i ≠ root_idx n) :
    node_parentFuel fuel i n =
      loopUntil parent_step (fun p => decide (p < num_nodes_in_tree n)) fuel (parent_step i) := by
  unfold node_parentFuel
  rw [if_neg h]

lemma node_parent_spec (n q l : Nat) (hn : n ≤ MAX_LEAVES)
    (hv : nodeVal q l < num_nodes_in_tree n) (hne : nodeVal q l ≠ root_idx n) :
    ∃ T : Nat,
      node_parent (nodeVal q l) n = nodeVal (q / 2 ^ (T + 1)) (l + (T + 1)) ∧
      nodeVal (q / 2 ^ (T + 1)) (l + (T + 1)) < num_nodes_in_tree n ∧
      (∀ s, 1 ≤ s → s ≤ T → num_nodes_in_tree n ≤ nodeVal (q / 2 ^ s) (l + s)) ∧
      l + (T + 1) ≤ rIdx n ∧
      (∀ extra : Nat, node_parentFuel (64 + extra) (nodeVal q l) n = node_parent (nodeVal q l) n) := by
  have hlr : l < rIdx n := level_lt_of_ne_root n q l hv hne
  have hq : q < 2 ^ (rIdx n - l) := qpart_lt n q l hv
  have hr63 : rIdx n ≤ 63 := rIdx_le_63 n hn
  have hex : ∃ t : Nat, nodeVal (q / 2 ^ (t + 1)) (l + (t + 1)) < num_nodes_in_tree n := by
    refine ⟨rIdx n - l - 1, ?_⟩
    rw [show rIdx n - l - 1 + 1 = rIdx n - l from by omega, Nat.div_eq_of_lt hq,
      show l + (rIdx n - l) = rIdx n from by omega, ← root_idx_eq]
    exact root_idx_lt n
  set T := Nat.find hex with hTdef
  have hTspec : nodeVal (q / 2 ^ (T + 1)) (l + (T + 1)) < num_nodes_in_tree n :=
    Nat.find_spec hex
  have hTmin : ∀ t, t < T → ¬ nodeVal (q / 2 ^ (t + 1)) (l + (t + 1)) < num_nodes_in_tree n :=
    fun t ht => Nat.find_min hex ht
  have hTle : T ≤ rIdx n - l - 1 := Nat.find_le (by
    rw [show rIdx n - l - 1 + 1 = rIdx n - l from by omega, Nat.div_eq_of_lt hq,
      show l + (rIdx n - l) = rIdx n from by omega, ← root_idx_eq]
    exact root_idx_lt n)
  have hiter : ∀ t : Nat, parent_step^[t] (parent_step (nodeVal q l)) =
      nodeVal (q / 2 ^ (t + 1)) (l + (t + 1)) := by
    intro t
    rw [← Function.iterate_succ_apply, iterate_parent_step]
  have hloop : ∀ fuel, T ≤ fuel →
      loopUntil parent_step (fun p => decide (p < num_nodes_in_tree n)) fuel
        (parent_step (nodeVal q l)) = nodeVal (q / 2 ^ (T + 1)) (l + (T + 1)) := by
    intro fuel hf
    have h1 : (fun p => decide (p < num_nodes_in_tree n))
        (parent_step^[T] (parent_step (nodeVal q l))) = true := by
      rw [hiter T]
      simp only [decide_eq_true_eq]
      exact hTspec
    have h2 : ∀ t, t < T → (fun p => decide (p < num_nodes_in_tree n))
        (parent_step^[t] (parent_step (nodeVal q l))) = false := by
      intro t ht
      rw [hiter t]
      simp only [decide_eq_false_iff_not]
      exact hTmin t ht
    rw [loopUntil_eq_iterate _ _ T _ h1 h2 fuel hf, hiter T]
  have hmain : node_parent (nodeVal q l) n = nodeVal (q / 2 ^ (T + 1)) (l + (T + 1)) := by
    unfold node_parent
    rw [node_parentFuel_of_ne _ _ _ hne]
    exact hloop 64 (by omega)
  refine ⟨T, hmain, hTspec, ?_, by omega, ?_⟩
  · intro s hs1 hs2
    have := hTmin (s - 1) (by omega)
    rw [show s - 1 + 1 = s from by omega] at this
    omega
  · intro extra
    rw [node_parentFuel_of_ne _ _ _ hne, hloop (64 + extra) (by omega), hmain]

/-! ### Parents of children -/

lemma nodeVal_ne_root_of_q_pos (n q l : Nat) (hq : 0 < q) : nodeVal q l ≠ root_idx n := by
  intro hc
  rw [root_idx_eq] at hc
  obtain ⟨h1, _⟩ := nodeVal_inj _ _ _ _ hc
  omega

lemma left_child_lt (q l : Nat) : nodeVal (2 * q) l < nodeVal q (l + 1) := by
  have a1 := nodeVal_add_one (2 * q) l
  have a2 := nodeVal_add_one q (l + 1)
  have e1 : 2 * q * 2 ^ (l + 1) = q * 2 ^ (l + 1 + 1) := by ring
  have e2 : (2:Nat) ^ (l + 1) = 2 * 2 ^ l := by ring
  have e3 := Nat.two_pow_pos l
  omega

lemma left_child_ne_root (n q l : Nat) (hp : nodeVal q (l + 1) < num_nodes_in_tree n) :
    nodeVal (2 * q) l ≠ root_idx n := by
  intro hc
  rw [root_idx_eq] at hc
  obtain ⟨h1, h2⟩ := nodeVal_inj _ _ _ _ hc
  have hq : q = 0 := by omega
  subst hq
  subst h2
  have h3 := (rIdx_spec n).2
  have a := nodeVal_add_one 0 (rIdx n + 1)
  simp only [Nat.zero_mul, Nat.zero_add] at a
  omega

lemma parent_of_left_child (n q l : Nat) (hn : n ≤ MAX_LEAVES)
    (hp : nodeVal q (l + 1) < num_nodes_in_tree n) :
    node_parent (node_left_child (nodeVal q (l + 1))) n = nodeVal q (l + 1) := by
  rw [node_left_child_nodeVal]
  have hne := left_child_ne_root n q l hp
  unfold node_parent
  rw [node_parentFuel_of_ne _ _ _ hne, parent_step_nodeVal,
    show 2 * q / 2 = q from by omega]
  exact loopUntil_stop _ _ _ _ (by
    simp only [decide_eq_true_eq]
    exact hp)

lemma node_right_child_leaf (i n : Nat) (h : node_level i = 0) : node_right_child i n = i := by
  unfold node_right_child node_right_childFuel
  rw [if_pos h]

lemma node_right_childFuel_of_ne (fuel i n : Nat) (h : ¬ node_level i = 0) :
    node_right_childFuel fuel i n =
      loopUntil node_left_child (fun r => decide (r < num_nodes_in_tree n)) fuel
        (i ^^^ (3 <<< (node_level i - 1))) := by
  unfold node_right_childFuel
  rw [if_neg h]

lemma right_child_spec (n q l : Nat) (hn : n ≤ MAX_LEAVES)
    (hp : nodeVal q (l + 1) < num_nodes_in_tree n) :
    ∃ S, S ≤ l ∧
      node_right_child (nodeVal q (l + 1)) n = nodeVal ((2 * q + 1) * 2 ^ S) (l - S) ∧
      nodeVal ((2 * q + 1) * 2 ^ S) (l - S) < num_nodes_in_tree n ∧
      nodeVal q (l + 1) < nodeVal ((2 * q + 1) * 2 ^ S) (l - S) ∧
      node_parent (nodeVal ((2 * q + 1) * 2 ^ S) (l - S)) n = nodeVal q (l + 1) ∧
      (∀ s, s < S → num_nodes_in_tree n ≤ nodeVal ((2 * q + 1) * 2 ^ s) (l - s)) ∧
      (∀ extra, node_right_childFuel (64 + extra) (nodeVal q (l + 1)) n
          = node_right_child (nodeVal q (l + 1)) n) := by
  have hlr : l + 1 ≤ rIdx n := level_le_rIdx n q (l + 1) hp
  have hr63 : rIdx n ≤ 63 := rIdx_le_63 n hn
  have hNodd := num_nodes_odd n
  have hpodd : nodeVal q (l + 1) % 2 = 1 := by
    rw [nodeVal_succ]
    omega
  have hex : ∃ s : Nat, nodeVal ((2 * q + 1) * 2 ^ s) (l - s) < num_nodes_in_tree n := by
    refine ⟨l, ?_⟩
    rw [Nat.sub_self, nodeVal_zero]
    have a2 := nodeVal_add_one q (l + 1)
    have e1 : 2 * ((2 * q + 1) * 2 ^ l) = q * 2 ^ (l + 1 + 1) + 2 ^ (l + 1) := by ring
    omega
  set S := Nat.find hex with hSdef
  have hSspec : nodeVal ((2 * q + 1) * 2 ^ S) (l - S) < num_nodes_in_tree n :=
    Nat.find_spec hex
  have hSmin : ∀ s, s < S → ¬ nodeVal ((2 * q + 1) * 2 ^ s) (l - s) < num_nodes_in_tree n :=
    fun s hs => Nat.find_min hex hs
  have hSle : S ≤ l := Nat.find_le (by
    rw [Nat.sub_self, nodeVal_zero]
    have a2 := nodeVal_add_one q (l + 1)
    have e1 : 2 * ((2 * q + 1) * 2 ^ l) = q * 2 ^ (l + 1 + 1) + 2 ^ (l + 1) := by ring
    omega)
  have hwalk : ∀ t, t ≤ l → node_left_child^[t] (nodeVal (2 * q + 1) l) =
      nodeVal ((2 * q + 1) * 2 ^ t) (l - t) := iterate_left_child (2 * q + 1) l
  have hloop : ∀ fuel, S ≤ fuel →
      loopUntil node_left_child (fun r => decide (r < num_nodes_in_tree n)) fuel
        (nodeVal (2 * q + 1) l) = nodeVal ((2 * q + 1) * 2 ^ S) (l - S) := by
    intro fuel hf
    have h1 : (fun r => decide (r < num_nodes_in_tree n))
        (node_left_child^[S] (nodeVal (2 * q + 1) l)) = true := by
      rw [hwalk S hSle]
      simp only [decide_eq_true_eq]
      exact hSspec
    have h2 : ∀ t, t < S → (fun r => decide (r < num_nodes_in_tree n))
        (node_left_child^[t] (nodeVal (2 * q + 1) l)) = false := by
      intro t ht
      rw [hwalk t (by omega)]
      simp only [decide_eq_false_iff_not]
      exact hSmin t ht
    rw [loopUntil_eq_iterate _ _ S _ h1 h2 fuel hf, hwalk S hSle]
  have hrcform : ∀ fuel, S ≤ fuel → node_right_childFuel fuel (nodeVal q (l + 1)) n =
      nodeVal ((2 * q + 1) * 2 ^ S) (l - S) := by
    intro fuel hf
    rw [node_right_childFuel_of_ne fuel _ n (by rw [node_level_nodeVal]; omega),
      node_level_nodeVal, show l + 1 - 1 = l from by omega, rc_conj_nodeVal]
    exact hloop fuel hf
  have hmain : node_right_child (nodeVal q (l + 1)) n = nodeVal ((2 * q + 1) * 2 ^ S) (l - S) :=
    hrcform 64 (by omega)
  have hgt : nodeVal q (l + 1) < nodeVal ((2 * q + 1) * 2 ^ S) (l - S) := by
    have a1 := nodeVal_add_one ((2 * q + 1) * 2 ^ S) (l - S)
    have a2 := nodeVal_add_one q (l + 1)
    have e0 : (2:Nat) ^ S * 2 ^ (l - S + 1) = 2 ^ (l + 1) := by
      rw [← pow_add]
      congr 1
      omega
    have e1 : (2 * q + 1) * 2 ^ S * 2 ^ (l - S + 1) = (2 * q + 1) * (2 ^ S * 2 ^ (l - S + 1)) := by
      ring
    have e2 : (2 * q + 1) * 2 ^ (l + 1) = q * 2 ^ (l + 1 + 1) + 2 ^ (l + 1) := by ring
    have e3 := Nat.two_pow_pos (l - S)
    rw [e0] at e1
    omega
  have hparent : node_parent (nodeVal ((2 * q + 1) * 2 ^ S) (l - S)) n = nodeVal q (l + 1) := by
    have hrcne : nodeVal ((2 * q + 1) * 2 ^ S) (l - S) ≠ root_idx n :=
      nodeVal_ne_root_of_q_pos n _ _ (by positivity)
    unfold node_parent
    rw [node_parentFuel_of_ne _ _ _ hrcne]
    have hiter : ∀ t : Nat, parent_step^[t] (parent_step (nodeVal ((2 * q + 1) * 2 ^ S) (l - S))) =
        nodeVal ((2 * q + 1) * 2 ^ S / 2 ^ (t + 1)) (l - S + (t + 1)) := by
      intro t
      rw [← Function.iterate_succ_apply, iterate_parent_step]
    have h1 : (fun p => decide (p < num_nodes_in_tree n))
        (parent_step^[S] (parent_step (nodeVal ((2 * q + 1) * 2 ^ S) (l - S)))) = true := by
      rw [hiter S, mul_pow_div_pow_succ, show (2 * q + 1) / 2 = q from by omega,
        show l - S + (S + 1) = l + 1 from by omega]
      simp only [decide_eq_true_eq]
      exact hp
    have h2 : ∀ t, t < S → (fun p => decide (p < num_nodes_in_tree n))
        (parent_step^[t] (parent_step (nodeVal ((2 * q + 1) * 2 ^ S) (l - S)))) = false := by
      intro t ht
      rw [hiter t, mul_pow_div_pow _ _ _ (by omega : t + 1 ≤ S),
        show l - S + (t + 1) = l - (S - (t + 1)) from by omega]
      simp only [decide_eq_false_iff_not]
      exact hSmin (S - (t + 1)) (by omega)
    rw [loopUntil_eq_iterate _ _ S _ h1 h2 64 (by omega), hiter S, mul_pow_div_pow_succ,
      show (2 * q + 1) / 2 = q from by omega, show l - S + (S + 1) = l + 1 from by omega]
  refine ⟨S, hSle, hmain, hSspec, hgt, hparent, ?_, ?_⟩
  · intro s hs
    have := hSmin s hs
    omega
  · intro extra
    rw [hrcform (64 + extra) (by omega), hmain]

/-! ### Round trip: every non-root node is the left or right child of its parent -/

lemma mod_pow_eq_zero_of_bits (q : Nat) : ∀ T, (∀ s, s < T → q / 2 ^ s % 2 = 0) → q % 2 ^ T = 0 := by
  intro T
  induction T with
  | zero =>
    intro _
    simp [Nat.mod_one]
  | succ T ih =>
    intro h
    have hms : q % 2 ^ (T + 1) = q % 2 ^ T + 2 ^ T * (q / 2 ^ T % 2) := Nat.mod_pow_succ
    rw [hms, ih (fun s hs => h s (by omega)), h T (by omega)]
    simp

lemma sub_one_mul_add (a X : Nat) (h : 1 ≤ a) : a * X = (a - 1) * X + X := by
  have e : a - 1 + 1 = a := by omega
  calc a * X = (a - 1 + 1) * X := by rw [e]
  _ = (a - 1) * X + X := by ring

lemma round_trip (n q l : Nat) (hn : n ≤ MAX_LEAVES)
    (hv : nodeVal q l < num_nodes_in_tree n) (hne : nodeVal q l ≠ root_idx n) :
    (nodeVal q l < node_parent (nodeVal q l) n →
      node_left_child (node_parent (nodeVal q l) n) = nodeVal q l) ∧
    (node_parent (nodeVal q l) n < nodeVal q l →
      node_right_child (node_parent (nodeVal q l) n) n = nodeVal q l) := by
  obtain ⟨T, heq, hTspec, hmin, hlev, _⟩ := node_parent_spec n q l hn hv hne
  rw [heq]
  cases T with
  | zero =>
    rw [show (2:Nat) ^ (0 + 1) = 2 from by norm_num] at hTspec ⊢
    rw [show l + (0 + 1) = l + 1 from by omega] at hTspec ⊢
    by_cases hq2 : q % 2 = 0
    · -- even q: the node is the left child of its parent
      have hlc : node_left_child (nodeVal (q / 2) (l + 1)) = nodeVal q l := by
        rw [node_left_child_nodeVal, show 2 * (q / 2) = q from by omega]
      have hplt : nodeVal q l < nodeVal (q / 2) (l + 1) := by
        have a1 := nodeVal_add_one q l
        have a2 := nodeVal_add_one (q / 2) (l + 1)
        have e1 : q / 2 * 2 ^ (l + 1 + 1) = 2 * (q / 2) * 2 ^ (l + 1) := by ring
        rw [show 2 * (q / 2) = q from by omega] at e1
        have e2 : (2:Nat) ^ (l + 1) = 2 * 2 ^ l := by ring
        have e3 := Nat.two_pow_pos l
        omega
      exact ⟨fun _ => hlc, fun hc => absurd hc (by omega)⟩
    · -- odd q: the node is the right child of its parent, with no walking
      have hrc : node_right_child (nodeVal (q / 2) (l + 1)) n = nodeVal q l := by
        unfold node_right_child
        rw [node_right_childFuel_of_ne _ _ _ (by rw [node_level_nodeVal]; omega),
          node_level_nodeVal, show l + 1 - 1 = l from by omega, rc_conj_nodeVal,
          show 2 * (q / 2) + 1 = q from by omega]
        exact loopUntil_stop _ _ _ _ (by simp only [decide_eq_true_eq]; exact hv)
      have hplt : nodeVal (q / 2) (l + 1) < nodeVal q l := by
        have a1 := nodeVal_add_one q l
        have a2 := nodeVal_add_one (q / 2) (l + 1)
        have e1 : q / 2 * 2 ^ (l + 1 + 1) = 2 * (q / 2) * 2 ^ (l + 1) := by ring
        rw [show 2 * (q / 2) = q - 1 from by omega] at e1
        have e3 : q * 2 ^ (l + 1) = (q - 1) * 2 ^ (l + 1) + 2 ^ (l + 1) :=
          sub_one_mul_add q (2 ^ (l + 1)) (by omega)
        have e4 := Nat.two_pow_pos l
        have e2 : (2:Nat) ^ (l + 1) = 2 * 2 ^ l := by ring
        omega
      exact ⟨fun hc => absurd hc (by omega), fun _ => hrc⟩
  | succ T0 =>
    set T := T0 + 1 with hT
    have uh : q / 2 ^ (T + 1) = q / 2 ^ T / 2 := by
      rw [Nat.div_div_eq_div_mul, pow_succ]
    rw [uh] at hTspec ⊢
    -- all bits of q strictly below T are zero
    have hmiddle : ∀ s, s < T → q / 2 ^ s % 2 = 0 := by
      intro s hs
      by_contra hodd'
      have hodd : q / 2 ^ s % 2 = 1 := by omega
      have hA := hmin (s + 1) (by omega) (by omega)
      have hq' := Nat.div_add_mod q (2 ^ (s + 1))
      have hmod : 2 ^ s ≤ q % 2 ^ (s + 1) := by
        have hms : q % 2 ^ (s + 1) = q % 2 ^ s + 2 ^ s * (q / 2 ^ s % 2) := Nat.mod_pow_succ
        rw [hodd] at hms
        omega
      have f3 : q * 2 ^ (l + 1) =
          q / 2 ^ (s + 1) * 2 ^ (l + (s + 1) + 1) + q % 2 ^ (s + 1) * 2 ^ (l + 1) := by
        conv_lhs => rw [← hq']
        ring
      have f5 : 2 ^ s * 2 ^ (l + 1) ≤ q % 2 ^ (s + 1) * 2 ^ (l + 1) :=
        Nat.mul_le_mul_right _ hmod
      have f4 : (2:Nat) ^ s * 2 ^ (l + 1) = 2 ^ (l + (s + 1)) := by
        rw [← pow_add]
        congr 1
        omega
      have a1 := nodeVal_add_one q l
      have aA := nodeVal_add_one (q / 2 ^ (s + 1)) (l + (s + 1))
      have hC := Nat.two_pow_pos l
      omega
    have hqmod : q % 2 ^ T = 0 := mod_pow_eq_zero_of_bits q T hmiddle
    have hqu : q = q / 2 ^ T * 2 ^ T := by
      have hdm := Nat.div_add_mod q (2 ^ T)
      have e : 2 ^ T * (q / 2 ^ T) = q / 2 ^ T * 2 ^ T := by ring
      omega
    have hAT := hmin T (by omega) (le_refl T)
    have hu_odd : q / 2 ^ T % 2 = 1 := by
      by_contra hodd'
      have heven : q / 2 ^ T % 2 = 0 := by omega
      -- the parent would then sit strictly above a full-tree ancestor that is
      -- already outside the tree
      have aT := nodeVal_add_one (q / 2 ^ T) (l + T)
      have aP := nodeVal_add_one (q / 2 ^ T / 2) (l + (T + 1))
      have e1 : q / 2 ^ T / 2 * 2 ^ (l + (T + 1) + 1) =
          2 * (q / 2 ^ T / 2) * 2 ^ (l + T + 1) := by ring
      rw [show 2 * (q / 2 ^ T / 2) = q / 2 ^ T from by omega] at e1
      have e2 : (2:Nat) ^ (l + (T + 1)) = 2 * 2 ^ (l + T) := by ring
      have e4 : q / 2 ^ T * 2 ^ (l + T + 1) = q / 2 ^ T * 2 ^ (l + T) * 2 := by ring
      have e3 := Nat.two_pow_pos (l + T)
      omega
    have hupos : 1 ≤ q / 2 ^ T := by
      generalize hgen : q / 2 ^ T = u at hu_odd ⊢
      omega
    have hr63 := rIdx_le_63 n hn
    -- the node lies strictly to the right of its parent
    have hgt : nodeVal (q / 2 ^ T / 2) (l + (T + 1)) < nodeVal q l := by
      have a1 := nodeVal_add_one q l
      have aP := nodeVal_add_one (q / 2 ^ T / 2) (l + (T + 1))
      have e1 : q / 2 ^ T / 2 * 2 ^ (l + (T + 1) + 1) =
          2 * (q / 2 ^ T / 2) * 2 ^ (l + T + 1) := by ring
      rw [show 2 * (q / 2 ^ T / 2) = q / 2 ^ T - 1 from by omega] at e1
      have e3 : q / 2 ^ T * 2 ^ (l + T + 1) =
          (q / 2 ^ T - 1) * 2 ^ (l + T + 1) + 2 ^ (l + T + 1) :=
        sub_one_mul_add (q / 2 ^ T) (2 ^ (l + T + 1)) hupos
      have e4 : q * 2 ^ (l + 1) = q / 2 ^ T * 2 ^ (l + T + 1) := by
        conv_lhs => rw [hqu]
        ring
      have e2 : (2:Nat) ^ (l + (T + 1)) = 2 ^ (l + T + 1) := rfl
      have e5 := Nat.two_pow_pos l
      have e6 := Nat.two_pow_pos (l + T + 1)
      omega
    -- and the right-child walk from the parent comes back exactly to the node
    have hrc : node_right_child (nodeVal (q / 2 ^ T / 2) (l + (T + 1))) n = nodeVal q l := by
      unfold node_right_child
      rw [node_right_childFuel_of_ne _ _ _ (by rw [node_level_nodeVal]; omega),
        node_level_nodeVal, show l + (T + 1) - 1 = l + T from by omega]
      have hLform : nodeVal (q / 2 ^ T / 2) (l + (T + 1)) =
          nodeVal (q / 2 ^ T / 2) (l + T + 1) := rfl
      rw [hLform, rc_conj_nodeVal, show 2 * (q / 2 ^ T / 2) + 1 = q / 2 ^ T from by omega]
      -- walk values: at step t the walk sits on the full-tree ancestor at level l + T - t
      have hwalkval : ∀ t, t ≤ T → q / 2 ^ T * 2 ^ t = q / 2 ^ (T - t) := by
        intro t ht
        conv_rhs => rw [hqu]
        rw [mul_pow_div_pow _ _ _ (by omega : T - t ≤ T),
          show T - (T - t) = t from by omega]
      have hw : ∀ t, t ≤ T → node_left_child^[t] (nodeVal (q / 2 ^ T) (l + T)) =
          nodeVal (q / 2 ^ (T - t)) (l + (T - t)) := by
        intro t ht
        rw [iterate_left_child _ _ t (by omega), hwalkval t ht]
        congr 1
        omega
      have h1 : (fun r => decide (r < num_nodes_in_tree n))
          (node_left_child^[T] (nodeVal (q / 2 ^ T) (l + T))) = true := by
        rw [hw T (le_refl T), Nat.sub_self]
        simp only [decide_eq_true_eq]
        rw [show l + 0 = l from by omega, Nat.pow_zero, Nat.div_one]
        exact hv
      have h2 : ∀ t, t < T → (fun r => decide (r < num_nodes_in_tree n))
          (node_left_child^[t] (nodeVal (q / 2 ^ T) (l + T))) = false := by
        intro t ht
        rw [hw t (by omega)]
        simp only [decide_eq_false_iff_not]
        have := hmin (T - t) (by omega) (by omega)
        omega
      rw [loopUntil_eq_iterate _ _ T _ h1 h2 64 (by omega), hw T (le_refl T), Nat.sub_self]
      rw [show l + 0 = l from by omega, Nat.pow_zero, Nat.div_one]
    exact ⟨fun hc => absurd hc (by omega), fun _ => hrc⟩

/-! ### Derived facts about `node_parent` -/

lemma node_parent_lt (n i : Nat) (hn : n ≤ MAX_LEAVES) (hv : i < num_nodes_in_tree n) :
    node_parent i n < num_nodes_in_tree n := by
  by_cases h : i = root_idx n
  · subst h
    rw [node_parent_of_root]
    exact root_idx_lt n
  · obtain ⟨q, l, rfl⟩ := exists_nodeVal i
    obtain ⟨T, heq, hlt, _, _, _⟩ := node_parent_spec n q l hn hv h
    rw [heq]
    exact hlt

lemma node_parent_level_gt (n i : Nat) (hn : n ≤ MAX_LEAVES) (hv : i < num_nodes_in_tree n)
    (hne : i ≠ root_idx n) : node_level i < node_level (node_parent i n) := by
  obtain ⟨q, l, rfl⟩ := exists_nodeVal i
  obtain ⟨T, heq, _, _, _, _⟩ := node_parent_spec n q l hn hv hne
  rw [heq, node_level_nodeVal, node_level_nodeVal]
  omega

lemma node_parent_level_le (n i : Nat) (hn : n ≤ MAX_LEAVES) (hv : i < num_nodes_in_tree n) :
    node_level i ≤ rIdx n := by
  obtain ⟨q, l, rfl⟩ := exists_nodeVal i
  rw [node_level_nodeVal]
  exact level_le_rIdx n q l hv

/-- Every valid node of parent level `rIdx n` is the root. -/
lemma eq_root_of_level (n i : Nat) (hv : i < num_nodes_in_tree n)
    (hl : node_level i = rIdx n) : i = root_idx n := by
  obtain ⟨q, l, rfl⟩ := exists_nodeVal i
  rw [node_level_nodeVal] at hl
  subst hl
  exact eq_root_of_level_eq n q hv

/-- Which nodes have the root as their parent: the root itself and its two
children. -/
lemma parent_eq_root_iff (n i : Nat) (hn : n ≤ MAX_LEAVES) (hv : i < num_nodes_in_tree n) :
    node_parent i n = root_idx n ↔
      (i = root_idx n ∨ i = node_left_child (root_idx n) ∨
        i = node_right_child (root_idx n) n) := by
  constructor
  · intro hp
    by_cases hroot : i = root_idx n
    · exact Or.inl hroot
    · obtain ⟨q, l, rfl⟩ := exists_nodeVal i
      obtain ⟨hL, hR⟩ := round_trip n q l hn hv hroot
      rcases Nat.lt_trichotomy (nodeVal q l) (node_parent (nodeVal q l) n) with hlt | heqq | hgt
      · right
        left
        rw [← hp, hL hlt]
      · exfalso
        apply hroot
        rw [heqq, hp]
      · right
        right
        rw [← hp, hR hgt]
  · intro hC
    rcases hC with hroot | hlc | hrc
    · subst hroot
      exact node_parent_of_root n
    · by_cases h0 : node_level (root_idx n) = 0
      · rw [node_left_child_leaf _ h0] at hlc
        subst hlc
        exact node_parent_of_root n
      · subst hlc
        rw [root_idx_eq] at h0 ⊢
        rw [node_level_nodeVal] at h0
        obtain ⟨m, hm⟩ : ∃ m, rIdx n = m + 1 := ⟨rIdx n - 1, by omega⟩
        rw [hm]
        rw [hm] at h0
        exact parent_of_left_child n 0 m hn (by rw [← hm, ← root_idx_eq]; exact root_idx_lt n)
    · by_cases h0 : node_level (root_idx n) = 0
      · rw [node_right_child_leaf _ _ h0] at hrc
        subst hrc
        exact node_parent_of_root n
      · subst hrc
        rw [root_idx_eq] at h0 ⊢
        rw [node_level_nodeVal] at h0
        obtain ⟨m, hm⟩ : ∃ m, rIdx n = m + 1 := ⟨rIdx n - 1, by omega⟩
        rw [hm]
        obtain ⟨S, _, hrceq, _, _, hpar, _, _⟩ := right_child_spec n 0 m hn
          (by rw [← hm, ← root_idx_eq]; exact root_idx_lt n)
        rw [hrceq]
        exact hpar

/-! ### The direct-path and copath loops -/

lemma directPathLoop_succ (n fuel p : Nat) :
    directPathLoop n (fuel + 1) p =
      if p = root_idx n then [] else p :: directPathLoop n fuel (node_parent p n) := rfl

lemma copathLoop_succ (n fuel p : Nat) :
    copathLoop n (fuel + 1) p =
      if p = root_idx n then []
      else node_sibling p n :: copathLoop n fuel (node_parent p n) := rfl

lemma directPathLoop_root (n fuel : Nat) : directPathLoop n fuel (root_idx n) = [] := by
  cases fuel with
  | zero => rfl
  | succ fuel =>
    rw [directPathLoop_succ, if_pos rfl]

lemma copathLoop_root (n fuel : Nat) : copathLoop n fuel (root_idx n) = [] := by
  cases fuel with
  | zero => rfl
  | succ fuel =>
    rw [copathLoop_succ, if_pos rfl]

lemma pathLoop_stable (n : Nat) (hn : n ≤ MAX_LEAVES) :
    ∀ k p, p < num_nodes_in_tree n → rIdx n - node_level p ≤ k →
      ∀ f1 f2, k ≤ f1 → k ≤ f2 →
        directPathLoop n f1 p = directPathLoop n f2 p ∧
        copathLoop n f1 p = copathLoop n f2 p := by
  intro k
  induction k with
  | zero =>
    intro p hv hk f1 f2 _ _
    have hp : p = root_idx n := by
      apply eq_root_of_level n p hv
      have := node_parent_level_le n p hn hv
      omega
    subst hp
    rw [directPathLoop_root, directPathLoop_root, copathLoop_root, copathLoop_root]
    exact ⟨rfl, rfl⟩
  | succ k ih =>
    intro p hv hk f1 f2 h1 h2
    by_cases hp : p = root_idx n
    · subst hp
      rw [directPathLoop_root, directPathLoop_root, copathLoop_root, copathLoop_root]
      exact ⟨rfl, rfl⟩
    · obtain ⟨g1, rfl⟩ : ∃ g, f1 = g + 1 := ⟨f1 - 1, by omega⟩
      obtain ⟨g2, rfl⟩ : ∃ g, f2 = g + 1 := ⟨f2 - 1, by omega⟩
      rw [directPathLoop_succ, directPathLoop_succ, copathLoop_succ, copathLoop_succ,
        if_neg hp, if_neg hp, if_neg hp, if_neg hp]
      have hpv := node_parent_lt n p hn hv
      have hpl := node_parent_level_gt n p hn hv hp
      have hrec := ih (node_parent p n) hpv (by omega) g1 g2 (by omega) (by omega)
      exact ⟨by rw [hrec.1], by rw [hrec.2]⟩

lemma path_refuel (n : Nat) (hn : n ≤ MAX_LEAVES) (p : Nat) (hv : p < num_nodes_in_tree n) :
    directPathLoop n 63 p = directPathLoop n 64 p ∧
      copathLoop n 63 p = copathLoop n 64 p := by
  have h63 := rIdx_le_63 n hn
  exact pathLoop_stable n hn 63 p hv (by omega) 63 64 (le_refl _) (by omega)

lemma path_spec (n : Nat) (hn : n ≤ MAX_LEAVES) :
    ∀ k p, p < num_nodes_in_tree n → rIdx n - node_level p ≤ k →
      (directPathLoop n 64 p = [] ↔ p = root_idx n) ∧
      (directPathLoop n 64 p ≠ [] → (directPathLoop n 64 p).head? = some p) ∧
      List.Chain' (fun a b => node_parent a n = b) (directPathLoop n 64 p) ∧
      List.Chain' (fun a b => node_level a < node_level b) (directPathLoop n 64 p) ∧
      (∀ x, (directPathLoop n 64 p).getLast? = some x → node_parent x n = root_idx n) ∧
      (copathLoop n 64 p).length = (directPathLoop n 64 p).length := by
  intro k
  induction k with
  | zero =>
    intro p hv hk
    have hp : p = root_idx n := by
      apply eq_root_of_level n p hv
      have := node_parent_level_le n p hn hv
      omega
    subst hp
    rw [directPathLoop_root, copathLoop_root]
    exact ⟨by simp, by simp, by simp, by simp, by simp, rfl⟩
  | succ k ih =>
    intro p hv hk
    by_cases hp : p = root_idx n
    · subst hp
      rw [directPathLoop_root, copathLoop_root]
      exact ⟨by simp, by simp, by simp, by simp, by simp, rfl⟩
    · have hpv := node_parent_lt n p hn hv
      have hpl := node_parent_level_gt n p hn hv hp
      have hunf : directPathLoop n 64 p = p :: directPathLoop n 64 (node_parent p n) := by
        rw [show (64:Nat) = 63 + 1 from rfl, directPathLoop_succ, if_neg hp,
          (path_refuel n hn _ hpv).1]
      have hunfc : copathLoop n 64 p =
          node_sibling p n :: copathLoop n 64 (node_parent p n) := by
        rw [show (64:Nat) = 63 + 1 from rfl, copathLoop_succ, if_neg hp,
          (path_refuel n hn _ hpv).2]
      obtain ⟨ihem, ihhd, ihcp, ihcl, ihlast, ihlen⟩ := ih (node_parent p n) hpv (by omega)
      rw [hunf, hunfc]
      refine ⟨by simp [hp], fun _ => rfl, ?_, ?_, ?_, by simp [ihlen]⟩
      · rw [List.chain'_cons']
        refine ⟨?_, ihcp⟩
        intro b hb
        by_cases hre : directPathLoop n 64 (node_parent p n) = []
        · rw [hre] at hb
          simp at hb
        · rw [ihhd hre] at hb
          simp at hb
          subst hb
          rfl
      · rw [List.chain'_cons']
        refine ⟨?_, ihcl⟩
        intro b hb
        by_cases hre : directPathLoop n 64 (node_parent p n) = []
        · rw [hre] at hb
          simp at hb
        · rw [ihhd hre] at hb
          simp at hb
          subst hb
          exact hpl
      · intro x hx
        by_cases hre : directPathLoop n 64 (node_parent p n) = []
        · rw [hre] at hx
          simp at hx
          subst hx
          exact ihem.mp hre
        · obtain ⟨a, t, hat⟩ := List.exists_cons_of_ne_nil hre
          rw [hat] at hx
          rw [List.getLast?_cons_cons] at hx
          apply ihlast x
          rw [hat]
          exact hx

/-! ### Both children of a valid internal node -/

lemma node_sibling_def (idx n : Nat) :
    node_sibling idx n =
      if idx < node_parent idx n then node_right_child (node_parent idx n) n
      else if node_parent idx n < idx then node_left_child (node_parent idx n)
      else node_parent idx n := rfl

lemma children_parents (n i : Nat) (hn : n ≤ MAX_LEAVES) (hv : i < num_nodes_in_tree n)
    (hlvl : 0 < node_level i) :
    node_parent (node_left_child i) n = i ∧ node_parent (node_right_child i n) n = i ∧
      node_left_child i < i ∧ i < node_right_child i n ∧
      node_right_child i n < num_nodes_in_tree n := by
  obtain ⟨q, l0, rfl⟩ := exists_nodeVal i
  rw [node_level_nodeVal] at hlvl
  obtain ⟨l, rfl⟩ : ∃ m, l0 = m + 1 := ⟨l0 - 1, by omega⟩
  obtain ⟨S, hSle, hrc, hrcv, hgt, hpar, _, _⟩ := right_child_spec n q l hn hv
  refine ⟨parent_of_left_child n q l hn hv, ?_, ?_, ?_, ?_⟩
  · rw [hrc]
    exact hpar
  · rw [node_left_child_nodeVal]
    exact left_child_lt q l
  · rw [hrc]
    exact hgt
  · rw [hrc]
    exact hrcv

/-! ## The claims -/

/-- Claim C1: for every valid number of leaves `n` (`1 <= n <= MAX_LEAVES`)
and every node index `i < num_nodes(n)`, the parent of the sibling of `i`
equals the parent of `i`. -/
theorem claim_C1 (n i : Nat) (hn1 : 1 ≤ n) (hn : n ≤ MAX_LEAVES)
    (hi : i < num_nodes_in_tree n) :
    node_parent (node_sibling i n) n = node_parent i n := by
  by_cases hroot : i = root_idx n
  · subst hroot
    rw [node_sibling_def, node_parent_of_root, if_neg (lt_irrefl _), if_neg (lt_irrefl _)]
    exact node_parent_of_root n
  · have hplt := node_parent_lt n i hn hi
    have hlgt := node_parent_level_gt n i hn hi hroot
    have hplvl : 0 < node_level (node_parent i n) := by omega
    have hcp := children_parents n (node_parent i n) hn hplt hplvl
    have hne : i ≠ node_parent i n := by
      intro hc
      rw [← hc] at hlgt
      omega
    rw [node_sibling_def]
    rcases Nat.lt_trichotomy i (node_parent i n) with h | h | h
    · rw [if_pos h]
      exact hcp.2.1
    · exact absurd h hne
    · rw [if_neg (by omega), if_pos h]
      exact hcp.1

/-- Witness for C1 at `n = 5`, `i = 4`. -/
theorem claim_C1_witness :
    (1 ≤ 5 ∧ 5 ≤ MAX_LEAVES ∧ 4 < num_nodes_in_tree 5) ∧
      node_parent (node_sibling 4 5) 5 = node_parent 4 5 :=
  ⟨by decide, claim_C1 5 4 (by decide) (by decide) (by decide)⟩

/-- Claim C2: for every valid `n` and valid `i` with `node_level i > 0`, the
parent of each of `i`'s children is `i` itself. -/
theorem claim_C2 (n i : Nat) (hn1 : 1 ≤ n) (hn : n ≤ MAX_LEAVES)
    (hi : i < num_nodes_in_tree n) (hlvl : 0 < node_level i) :
    node_parent (node_left_child i) n = i ∧ node_parent (node_right_child i n) n = i :=
  ⟨(children_parents n i hn hi hlvl).1, (children_parents n i hn hi hlvl).2.1⟩

/-- Witness for C2 at `n = 5`, `i = 3`. -/
theorem claim_C2_witness :
    (1 ≤ 5 ∧ 5 ≤ MAX_LEAVES ∧ 3 < num_nodes_in_tree 5 ∧ 0 < node_level 3) ∧
      (node_parent (node_left_child 3) 5 = 3 ∧ node_parent (node_right_child 3 5) 5 = 3) :=
  ⟨by decide, claim_C2 5 3 (by decide) (by decide) (by decide) (by decide)⟩

/-- Claim C10: for every valid `n` and valid `i` with `node_level i > 0`, the
children of `i` bracket it in index order: `left_child i < i < right_child i n`,
even when the conjectured right child is walked left into a non-full
subtree. -/
theorem claim_C10 (n i : Nat) (hn1 : 1 ≤ n) (hn : n ≤ MAX_LEAVES)
    (hi : i < num_nodes_in_tree n) (hlvl : 0 < node_level i) :
    node_left_child i < i ∧ i < node_right_child i n :=
  ⟨(children_parents n i hn hi hlvl).2.2.1, (children_parents n i hn hi hlvl).2.2.2.1⟩

/-- Witness for C10 at `n = 5`, `i = 7` (right child walks into the non-full
subtree: `node_right_child 7 5 = 8`). -/
theorem claim_C10_witness :
    (1 ≤ 5 ∧ 5 ≤ MAX_LEAVES ∧ 7 < num_nodes_in_tree 5 ∧ 0 < node_level 7) ∧
      (node_left_child 7 < 7 ∧ 7 < node_right_child 7 5) :=
  ⟨by decide, claim_C10 5 7 (by decide) (by decide) (by decide) (by decide)⟩

/-- Claim C5 (termination): `parent_step` strictly increases the node level,
the left-child walk strictly decreases it, and on every valid input both
while loops reach their exit condition within the fuel, so `node_parent` and
`node_right_child` are total on their precondition: their results satisfy
the loop exit condition, and giving the loops any extra fuel does not change
the result. -/
theorem claim_C5 (n i : Nat) (hn1 : 1 ≤ n) (hn : n ≤ MAX_LEAVES)
    (hi : i < num_nodes_in_tree n) :
    (∀ p : Nat, node_level (parent_step p) = node_level p + 1) ∧
    (∀ x : Nat, 0 < node_level x → node_level (node_left_child x) + 1 = node_level x) ∧
    node_parent i n < num_nodes_in_tree n ∧
    node_right_child i n < num_nodes_in_tree n ∧
    (∀ extra : Nat, node_parentFuel (64 + extra) i n = node_parent i n) ∧
    (∀ extra : Nat, node_right_childFuel (64 + extra) i n = node_right_child i n) := by
  refine ⟨?_, ?_, node_parent_lt n i hn hi, ?_, ?_, ?_⟩
  · intro p
    obtain ⟨q, l, rfl⟩ := exists_nodeVal p
    rw [parent_step_nodeVal, node_level_nodeVal, node_level_nodeVal]
  · intro x hx
    obtain ⟨q, l0, rfl⟩ := exists_nodeVal x
    rw [node_level_nodeVal] at hx
    obtain ⟨l, rfl⟩ : ∃ m, l0 = m + 1 := ⟨l0 - 1, by omega⟩
    rw [node_left_child_nodeVal, node_level_nodeVal, node_level_nodeVal]
  · by_cases h0 : node_level i = 0
    · rw [node_right_child_leaf i n h0]
      exact hi
    · obtain ⟨q, l0, rfl⟩ := exists_nodeVal i
      rw [node_level_nodeVal] at h0
      obtain ⟨l, rfl⟩ : ∃ m, l0 = m + 1 := ⟨l0 - 1, by omega⟩
      obtain ⟨S, _, hrc, hrcv, _, _, _, _⟩ := right_child_spec n q l hn hi
      rw [hrc]
      exact hrcv
  · intro extra
    by_cases hroot : i = root_idx n
    · subst hroot
      unfold node_parent node_parentFuel
      rw [if_pos rfl, if_pos rfl]
    · obtain ⟨q, l, rfl⟩ := exists_nodeVal i
      obtain ⟨T, _, _, _, _, hstab⟩ := node_parent_spec n q l hn hi hroot
      exact hstab extra
  · intro extra
    by_cases h0 : node_level i = 0
    · have h1 : node_right_childFuel (64 + extra) i n = i := by
        unfold node_right_childFuel
        rw [if_pos h0]
      rw [h1, node_right_child_leaf i n h0]
    · obtain ⟨q, l0, rfl⟩ := exists_nodeVal i
      rw [node_level_nodeVal] at h0
      obtain ⟨l, rfl⟩ : ∃ m, l0 = m + 1 := ⟨l0 - 1, by omega⟩
      obtain ⟨S, _, _, _, _, _, _, hstab⟩ := right_child_spec n q l hn hi
      exact hstab extra

/-- Witness for C5 at `n = 5`, `i = 0`. -/
theorem claim_C5_witness :
    (1 ≤ 5 ∧ 5 ≤ MAX_LEAVES ∧ 0 < num_nodes_in_tree 5) ∧
      ((∀ p : Nat, node_level (parent_step p) = node_level p + 1) ∧
      (∀ x : Nat, 0 < node_level x → node_level (node_left_child x) + 1 = node_level x) ∧
      node_parent 0 5 < num_nodes_in_tree 5 ∧
      node_right_child 0 5 < num_nodes_in_tree 5 ∧
      (∀ extra : Nat, node_parentFuel (64 + extra) 0 5 = node_parent 0 5) ∧
      (∀ extra : Nat, node_right_childFuel (64 + extra) 0 5 = node_right_child 0 5)) :=
  ⟨by decide, claim_C5 5 0 (by decide) (by decide) (by decide)⟩

/-- Claim C6, amended: for every valid `n` and valid `i`, the direct path of
`i` is strictly increasing in node level, each element's parent is the next
element, the last element is a child of the root (its parent is the root),
and the path is empty exactly when `i` is the root or a direct child of the
root.  (The original claim's "last element is one level below the level of
the root" is false; see the counterexample.) -/
theorem claim_C6_amended (n i : Nat) (hn1 : 1 ≤ n) (hn : n ≤ MAX_LEAVES)
    (hi : i < num_nodes_in_tree n) :
    List.Chain' (fun a b => node_level a < node_level b) (node_direct_path i n) ∧
    List.Chain' (fun a b => node_parent a n = b) (node_direct_path i n) ∧
    (∀ x, (node_direct_path i n).getLast? = some x → node_parent x n = root_idx n) ∧
    (node_direct_path i n = [] ↔
      (i = root_idx n ∨ i = node_left_child (root_idx n) ∨
        i = node_right_child (root_idx n) n)) := by
  have hpv := node_parent_lt n i hn hi
  obtain ⟨hem, _, hcp, hcl, hlast, _⟩ :=
    path_spec n hn 64 (node_parent i n) hpv (by have := rIdx_le_63 n hn; omega)
  unfold node_direct_path
  refine ⟨hcl, hcp, hlast, ?_⟩
  rw [hem]
  exact parent_eq_root_iff n i hn hi

/-- Witness for C6 at `n = 6`, `i = 0` (direct path `[1, 3]`). -/
theorem claim_C6_witness :
    (1 ≤ 6 ∧ 6 ≤ MAX_LEAVES ∧ 0 < num_nodes_in_tree 6) ∧
      (List.Chain' (fun a b => node_level a < node_level b) (node_direct_path 0 6) ∧
      List.Chain' (fun a b => node_parent a 6 = b) (node_direct_path 0 6) ∧
      (∀ x, (node_direct_path 0 6).getLast? = some x → node_parent x 6 = root_idx 6) ∧
      (node_direct_path 0 6 = [] ↔
        (0 = root_idx 6 ∨ 0 = node_left_child (root_idx 6) ∨
          0 = node_right_child (root_idx 6) 6))) :=
  ⟨by decide, claim_C6_amended 6 0 (by decide) (by decide) (by decide)⟩

/-- Counterexample to C6 as stated: in the tree with 6 leaves the direct
path of node 8 is `[9]`, whose last element has level 1, while the root
(index 7) has level 3 — the path does not end one level below the level of
the root. -/
theorem claim_C6_counterexample :
    (1 ≤ 6 ∧ 6 ≤ MAX_LEAVES ∧ 8 < num_nodes_in_tree 6) ∧
      node_direct_path 8 6 = [9] ∧
      node_level 9 = 1 ∧ node_level (root_idx 6) = 3 ∧
      node_level 9 ≠ node_level (root_idx 6) - 1 := by decide

/-- Claim C7: for every valid `n` and valid `i ≠ root`, the copath is one
longer than the direct path. -/
theorem claim_C7 (n i : Nat) (hn1 : 1 ≤ n) (hn : n ≤ MAX_LEAVES)
    (hi : i < num_nodes_in_tree n) (hroot : i ≠ root_idx n) :
    (node_copath i n).length = (node_direct_path i n).length + 1 := by
  have hr63 := rIdx_le_63 n hn
  have hpv := node_parent_lt n i hn hi
  obtain ⟨_, _, _, _, _, hlen⟩ := path_spec n hn 64 i hi (by omega)
  have hunf : directPathLoop n 64 i = i :: directPathLoop n 64 (node_parent i n) := by
    rw [show (64:Nat) = 63 + 1 from rfl, directPathLoop_succ, if_neg hroot,
      (path_refuel n hn _ hpv).1]
  unfold node_copath node_direct_path
  rw [hlen, hunf]
  simp

/-- Witness for C7 at `n = 5`, `i = 0` (copath `[2, 5, 8]`, direct path
`[1, 3]`). -/
theorem claim_C7_witness :
    (1 ≤ 5 ∧ 5 ≤ MAX_LEAVES ∧ 0 < num_nodes_in_tree 5 ∧ 0 ≠ root_idx 5) ∧
      (node_copath 0 5).length = (node_direct_path 0 5).length + 1 :=
  ⟨by decide, claim_C7 5 0 (by decide) (by decide) (by decide) (by decide)⟩

/-- Claim C8: `num_nodes_in_tree` and `num_leaves_in_tree` are inverse on
odd values up to the maximum index, without panicking, and at the boundary
`num_nodes_in_tree MAX_LEAVES = usize::MAX` and
`num_leaves_in_tree usize::MAX = MAX_LEAVES`, with no overflow (the checked
versions return values, and the values stay at or below `usize::MAX`). -/
theorem claim_C8 (m : Nat) (hodd : m % 2 = 1) (hm : m ≤ MAX_UINT) :
    num_nodes_in_tree (num_leaves_in_tree m) = m ∧
    num_leaves_in_treeChecked m = some (num_leaves_in_tree m) ∧
    num_nodes_in_treeChecked (num_leaves_in_tree m) = some m ∧
    num_nodes_in_tree MAX_LEAVES = MAX_UINT ∧
    num_leaves_in_tree MAX_UINT = MAX_LEAVES ∧
    num_nodes_in_treeChecked MAX_LEAVES = some MAX_UINT ∧
    num_leaves_in_treeChecked MAX_UINT = some MAX_LEAVES := by
  have hML : MAX_LEAVES = 9223372036854775808 := by norm_num [MAX_LEAVES]
  have hMU : MAX_UINT = 18446744073709551615 := by norm_num [MAX_UINT]
  have hdiv : num_leaves_in_tree m = (m - 1) / 2 + 1 := by
    unfold num_leaves_in_tree
    rw [Nat.shiftRight_eq_div_pow]
  have h1 : num_nodes_in_tree (num_leaves_in_tree m) = m := by
    unfold num_nodes_in_tree
    rw [hdiv]
    omega
  have hle : num_leaves_in_tree m ≤ MAX_LEAVES := by
    rw [hdiv, hML]
    rw [hMU] at hm
    omega
  have hpos : 0 < num_leaves_in_tree m := by
    rw [hdiv]
    omega
  refine ⟨h1, ?_, ?_, by decide, by decide, by decide, by decide⟩
  · unfold num_leaves_in_treeChecked
    rw [if_pos hodd]
  · unfold num_nodes_in_treeChecked
    rw [if_pos ⟨hpos, hle⟩, h1]

/-- Witness for C8 at `m = 9`. -/
theorem claim_C8_witness :
    (9 % 2 = 1 ∧ 9 ≤ MAX_UINT) ∧
      (num_nodes_in_tree (num_leaves_in_tree 9) = 9 ∧
      num_leaves_in_treeChecked 9 = some (num_leaves_in_tree 9) ∧
      num_nodes_in_treeChecked (num_leaves_in_tree 9) = some 9 ∧
      num_nodes_in_tree MAX_LEAVES = MAX_UINT ∧
      num_leaves_in_tree MAX_UINT = MAX_LEAVES ∧
      num_nodes_in_treeChecked MAX_LEAVES = some MAX_UINT ∧
      num_leaves_in_treeChecked MAX_UINT = some MAX_LEAVES) :=
  ⟨by decide, claim_C8 9 (by decide) (by decide)⟩

/-- Claim C4, amended: `node_parent`, `node_right_child`, `node_sibling`,
`node_direct_path` and `node_copath` panic (modelled as `none`) whenever
invoked with an index outside `[0, num_nodes(n))`, and `root_idx`,
`num_nodes_in_tree` and `tree_frontier` panic on an invalid number of
leaves; `node_left_child`, however, performs no range check and returns
normally on every index (see the counterexample). -/
theorem claim_C4_amended (n idx : Nat) (hn1 : 1 ≤ n) (hn : n ≤ MAX_LEAVES)
    (hidx : num_nodes_in_tree n ≤ idx) :
    node_parentChecked idx n = none ∧
    node_right_childChecked idx n = none ∧
    node_siblingChecked idx n = none ∧
    node_direct_pathChecked idx n = none ∧
    node_copathChecked idx n = none ∧
    (∀ m : Nat, ¬ (0 < m ∧ m ≤ MAX_LEAVES) →
      root_idxChecked m = none ∧ num_nodes_in_treeChecked m = none ∧
      tree_frontierChecked m = none ∧ node_parentChecked idx m = none ∧
      node_right_childChecked idx m = none ∧ node_siblingChecked idx m = none ∧
      node_direct_pathChecked idx m = none ∧ node_copathChecked idx m = none) := by
  refine ⟨?_, ?_, ?_, ?_, ?_, ?_⟩
  · unfold node_parentChecked
    rw [if_neg (by omega)]
  · unfold node_right_childChecked
    rw [if_neg (by omega)]
  · unfold node_siblingChecked
    rw [if_neg (by omega)]
  · unfold node_direct_pathChecked
    rw [if_neg (by omega)]
  · unfold node_copathChecked
    rw [if_neg (by omega)]
  · intro m hm
    unfold root_idxChecked num_nodes_in_treeChecked tree_frontierChecked node_parentChecked
      node_right_childChecked node_siblingChecked node_direct_pathChecked node_copathChecked
    rw [if_neg hm, if_neg hm, if_neg hm, if_neg (by tauto), if_neg (by tauto),
      if_neg (by tauto), if_neg (by tauto), if_neg (by tauto)]
    exact ⟨rfl, rfl, rfl, rfl, rfl, rfl, rfl, rfl⟩

/-- Witness for C4 (amended) at `n = 5`, `idx = 9`, invalid `m = 0`. -/
theorem claim_C4_witness :
    (1 ≤ 5 ∧ 5 ≤ MAX_LEAVES ∧ num_nodes_in_tree 5 ≤ 9) ∧
      (node_parentChecked 9 5 = none ∧ node_right_childChecked 9 5 = none ∧
      node_siblingChecked 9 5 = none ∧ node_direct_pathChecked 9 5 = none ∧
      node_copathChecked 9 5 = none) ∧ root_idxChecked 0 = none :=
  ⟨by decide,
    ⟨(claim_C4_amended 5 9 (by decide) (by decide) (by decide)).1,
      (claim_C4_amended 5 9 (by decide) (by decide) (by decide)).2.1,
      (claim_C4_amended 5 9 (by decide) (by decide) (by decide)).2.2.1,
      (claim_C4_amended 5 9 (by decide) (by decide) (by decide)).2.2.2.1,
      (claim_C4_amended 5 9 (by decide) (by decide) (by decide)).2.2.2.2.1⟩,
    ((claim_C4_amended 5 9 (by decide) (by decide) (by decide)).2.2.2.2.2 0
      (by decide)).1⟩

/-- Counterexample to C4 as stated: `node_left_child` performs no range
check in the source; on index 9, which is out of range for the 5-leaf tree
(`num_nodes_in_tree 5 = 9`), it returns the value 8 instead of panicking. -/
theorem claim_C4_counterexample :
    num_nodes_in_tree 5 ≤ 9 ∧ node_left_child 9 = 8 := by decide

/-- Claim C3: `Handshake::from_group_op` builds a handshake whose
`prior_epoch` is the state's epoch, whose `signer_index` is the state's
roster position, whose `signature` is the ciphersuite signature under the
state's identity key over the state's (pre-application) transcript hash, and
whose `confirmation` is the HMAC under the state's confirmation key over the
transcript hash concatenated with the signature bytes. -/
theorem claim_C3 (hmac : Bytes → Bytes → HmacSignature) (cs : CipherSuite)
    (state : GroupState) (op : GroupOperation) :
    (Handshake.from_group_op hmac cs state op).prior_epoch = state.epoch ∧
    (Handshake.from_group_op hmac cs state op).operation = op ∧
    (Handshake.from_group_op hmac cs state op).signer_index =
      state.my_position_in_roster ∧
    (Handshake.from_group_op hmac cs state op).signature =
      cs.sig_impl.sign state.identity_key state.transcript_hash ∧
    (Handshake.from_group_op hmac cs state op).confirmation =
      hmac state.confirmation_key
        (List.append state.transcript_hash
          (cs.sig_impl.signature_to_bytes
            (cs.sig_impl.sign state.identity_key state.transcript_hash))) :=
  ⟨rfl, rfl, rfl, rfl, rfl⟩

/-! ### The frontier (claim C9) -/

lemma land_two_pow_bne_zero (x j : Nat) : (x &&& (1 <<< j) != 0) = x.testBit j := by
  rw [one_shiftLeft]
  by_cases h : x.testBit j
  · have hne : x &&& 2 ^ j ≠ 0 := by
      intro h0
      have hbit := congrArg (fun y => y.testBit j) h0
      simp only [Nat.testBit_land, Nat.zero_testBit, Nat.testBit_two_pow_self, h,
        Bool.true_and] at hbit
      exact Bool.noConfusion hbit
    rw [h]
    exact bne_iff_ne.mpr hne
  · have hz : x &&& 2 ^ j = 0 := by
      apply Nat.eq_of_testBit_eq
      intro k
      rw [Nat.testBit_land, Nat.zero_testBit]
      by_cases hk : k = j
      · subst hk
        simp only [Bool.and_eq_false_iff]
        left
        simp at h
        exact h
      · simp [Nat.testBit_two_pow_of_ne (fun hc => hk hc.symm)]
    rw [hz]
    simp at h
    rw [h]
    rfl

lemma sizes_present_eq (n : Nat) (hn1 : 1 ≤ n) :
    (sizes_present n).reverse = (setBitsDesc n).map (fun j => 2 ^ j) := by
  unfold sizes_present setBitsDesc
  have hlog : log2unwrap n + 1 = bitlen n := by
    rw [log2unwrap_eq n (by omega)]
    have := bitlen_pos n (by omega)
    omega
  rw [hlog]
  have hfun : (fun j => (1:Nat) <<< j) = fun j : Nat => 2 ^ j := funext one_shiftLeft
  have hpred : (fun j => n &&& (1 <<< j) != 0) = fun j : Nat => n.testBit j :=
    funext (fun j => land_two_pow_bne_zero n j)
  rw [hfun, hpred, List.map_reverse]

lemma root_idx_two_pow (j : Nat) : root_idx (2 ^ j) = 2 ^ j - 1 := by
  have hp := Nat.two_pow_pos j
  have hp1 := Nat.two_pow_pos (j + 1)
  have e : (2:Nat) ^ (j + 1) = 2 * 2 ^ j := by ring
  have hN : num_nodes_in_tree (2 ^ j) = 2 ^ (j + 1) - 1 := by
    unfold num_nodes_in_tree
    omega
  have hb : bitlen (2 ^ (j + 1) - 1) = j + 1 := by
    apply bitlen_eq_of_bounds
    · omega
    · omega
  unfold root_idx
  rw [hN, log2unwrap_eq _ (by omega), hb, one_shiftLeft,
    show j + 1 - 1 = j from by omega]

lemma frontierFold_cons (s : Nat) (rest : List Nat) (base : Nat) :
    frontierFold (s :: rest) base =
      (root_idx s + base) :: frontierFold rest (base + (num_nodes_in_tree s + 1)) := rfl

lemma specFrontierAux_cons (j : Nat) (js : List Nat) (off : Nat) :
    specFrontierAux (j :: js) off =
      (off + (2 ^ j - 1)) :: specFrontierAux js (off + 2 * 2 ^ j) := rfl

lemma frontierFold_eq_specAux : ∀ (js : List Nat) (base : Nat),
    frontierFold (js.map (fun j => 2 ^ j)) base = specFrontierAux js base := by
  intro js
  induction js with
  | nil => intro base; rfl
  | cons j js ih =>
    intro base
    rw [List.map_cons, frontierFold_cons, specFrontierAux_cons, root_idx_two_pow]
    congr 1
    · omega
    · rw [show base + (num_nodes_in_tree (2 ^ j) + 1) = base + 2 * 2 ^ j from by
        unfold num_nodes_in_tree
        have := Nat.two_pow_pos j
        omega]
      exact ih (base + 2 * 2 ^ j)

lemma specAux_levels : ∀ (js : List Nat) (off : Nat), js.Pairwise (· > ·) →
    (∀ j ∈ js, off % 2 ^ (j + 1) = 0) →
    (specFrontierAux js off).map node_level = js := by
  intro js
  induction js with
  | nil => intro off _ _; rfl
  | cons j js ih =>
    intro off hpw hmod
    rw [specFrontierAux_cons, List.map_cons]
    have hhead : node_level (off + (2 ^ j - 1)) = j := by
      have hm := hmod j (by simp)
      have hdm := Nat.div_add_mod off (2 ^ (j + 1))
      have hval : off + (2 ^ j - 1) = nodeVal (off / 2 ^ (j + 1)) j := by
        unfold nodeVal
        have e : 2 ^ (j + 1) * (off / 2 ^ (j + 1)) = off / 2 ^ (j + 1) * 2 ^ (j + 1) := by
          ring
        omega
      rw [hval, node_level_nodeVal]
    rw [hhead]
    congr 1
    apply ih
    · exact (List.pairwise_cons.mp hpw).2
    · intro j2 hj2
      have hgt : j < j2 → False := fun hc =>
        absurd ((List.pairwise_cons.mp hpw).1 j2 hj2) (by omega)
      have hlt : j2 < j := by
        have := (List.pairwise_cons.mp hpw).1 j2 hj2
        omega
      have h1 := hmod j2 (by simp [hj2])
      have hdvd : 2 ^ (j2 + 1) ∣ 2 * 2 ^ j := by
        have e : (2:Nat) * 2 ^ j = 2 ^ (j + 1) := by ring
        rw [e]
        exact pow_dvd_pow 2 (by omega)
      obtain ⟨c, hc⟩ := hdvd
      rw [hc, Nat.add_mul_mod_self_left, h1]

lemma setBitsDesc_pairwise (x : Nat) : (setBitsDesc x).Pairwise (· > ·) := by
  unfold setBitsDesc
  rw [List.pairwise_reverse]
  exact (List.pairwise_lt_range (bitlen x)).filter _

lemma sum_two_pow_bits : ∀ x : Nat,
    (((List.range (bitlen x)).filter (fun j => x.testBit j)).map (fun j => 2 ^ j)).sum
      = x := by
  intro x
  induction x using Nat.strong_induction_on with
  | _ x ih =>
    by_cases hx : x = 0
    · subst hx
      rw [show bitlen 0 = 0 from by rw [bitlen_eq]; simp]
      rfl
    · have hb : bitlen x = bitlen (x / 2) + 1 := by
        rw [bitlen_eq, if_neg hx]
      rw [hb]
      have hrange : List.range (bitlen (x / 2) + 1) =
          0 :: (List.range (bitlen (x / 2))).map (· + 1) := by
        have := List.range_succ_eq_map (bitlen (x / 2))
        simpa using this
      rw [hrange, List.filter_cons]
      have hcomp : ((fun j => x.testBit j) ∘ (· + 1)) = fun j : Nat => (x / 2).testBit j := by
        funext j
        show x.testBit (j + 1) = (x / 2).testBit j
        exact Nat.testBit_succ x j
      have hfm : ((List.range (bitlen (x / 2))).map (· + 1)).filter (fun j => x.testBit j) =
          ((List.range (bitlen (x / 2))).filter (fun j => (x / 2).testBit j)).map (· + 1) := by
        rw [List.filter_map, hcomp]
      have hpow : (fun j : Nat => 2 ^ j) ∘ (· + 1) = fun j : Nat => 2 * 2 ^ j := by
        funext j
        show (2:Nat) ^ (j + 1) = 2 * 2 ^ j
        ring
      have hrest :
          ((((List.range (bitlen (x / 2))).map (· + 1)).filter
              (fun j => x.testBit j)).map (fun j : Nat => 2 ^ j)).sum = 2 * (x / 2) := by
        rw [hfm, List.map_map, hpow, List.sum_map_mul_left, ih (x / 2) (by omega)]
      by_cases h0 : x.testBit 0
      · have hodd : x % 2 = 1 := by
          have := Nat.testBit_zero x
          rw [h0] at this
          have := of_decide_eq_true this.symm
          exact this
        rw [if_pos h0, List.map_cons, List.sum_cons, hrest]
        simp only [pow_zero]
        omega
      · have heven : x % 2 = 0 := by
          have := Nat.testBit_zero x
          rw [Bool.not_eq_true] at h0
          rw [h0] at this
          have := of_decide_eq_false this.symm
          omega
        rw [if_neg h0, hrest]
        omega

/-- Claim C9: for every valid number of leaves `n`, `tree_frontier n` lists,
left to right, the root index of one maximal full subtree per set bit of
`n` from most significant to least significant, each of `2^j` leaves at the
running offset advanced by `2*2^j` per subtree (this is `specFrontier`,
written from the spec's words); consequently the subtree leaf counts
(`2^(node_level entry)`) are in strictly descending order and sum to `n`. -/
theorem claim_C9 (n : Nat) (hn1 : 1 ≤ n) (hn : n ≤ MAX_LEAVES) :
    tree_frontier n = specFrontier n ∧
    (tree_frontier n).map node_level = setBitsDesc n ∧
    ((tree_frontier n).map (fun e => 2 ^ node_level e)).Pairwise (· > ·) ∧
    ((tree_frontier n).map (fun e => 2 ^ node_level e)).sum = n := by
  have hfr : tree_frontier n = specFrontier n := by
    unfold tree_frontier specFrontier
    rw [sizes_present_eq n hn1, frontierFold_eq_specAux]
  have hlv : (tree_frontier n).map node_level = setBitsDesc n := by
    rw [hfr]
    unfold specFrontier
    apply specAux_levels
    · exact setBitsDesc_pairwise n
    · intro j _
      simp
  have hmap2 : (tree_frontier n).map (fun e => 2 ^ node_level e) =
      (setBitsDesc n).map (fun j => 2 ^ j) := by
    rw [show (fun e => (2:Nat) ^ node_level e) = (fun j : Nat => 2 ^ j) ∘ node_level from
      rfl, ← List.map_map, hlv]
  refine ⟨hfr, hlv, ?_, ?_⟩
  · rw [hmap2]
    apply List.Pairwise.map
    · intro a b hab
      exact Nat.pow_lt_pow_right (by omega) hab
    · exact setBitsDesc_pairwise n
  · rw [hmap2]
    unfold setBitsDesc
    rw [List.map_reverse, List.sum_reverse]
    exact sum_two_pow_bits n

/-- Witness for C9 at `n = 6` (frontier `[3, 9]`, levels `[2, 1]`, counts
`[4, 2]`). -/
theorem claim_C9_witness :
    (1 ≤ 6 ∧ 6 ≤ MAX_LEAVES) ∧
      (tree_frontier 6 = specFrontier 6 ∧
      (tree_frontier 6).map node_level = setBitsDesc 6 ∧
      ((tree_frontier 6).map (fun e => 2 ^ node_level e)).Pairwise (· > ·) ∧
      ((tree_frontier 6).map (fun e => 2 ^ node_level e)).sum = 6) :=
  ⟨by decide, claim_C9 6 (by decide) (by decide)⟩

end Molasses
